import Mathlib

/-!
# Five-stage pipeline simulator (`sim_pipe.cc`, `sim_pipe_fp.h`)

A shallow embedding of the simulator's helper functions and of the state the
class `sim_pipe` owns.  Values of C type `unsigned` are natural numbers below
`2 ^ 32`; every arithmetic operation reduces modulo `2 ^ 32` explicitly.
Values of C type `int` are integers in `[-2 ^ 31, 2 ^ 31)`.
-/

namespace SimPipe

/-! ## Constants of the header -/

/-- Capacity of the instruction memory (`#define PROGRAM_SIZE 50`). -/
def PROGRAM_SIZE : Nat := 50

/-- Sentinel for an undefined value (`#define UNDEFINED 0xFFFFFFFF`). -/
def UNDEFINED : Nat := 0xFFFFFFFF

/-- Number of general purpose registers (`#define NUM_GP_REGISTERS 32`). -/
def NUM_GP_REGISTERS : Nat := 32

/-- Number of pipeline stages (`#define NUM_STAGES 5`). -/
def NUM_STAGES : Nat := 5

/-- Special purpose registers (`sp_register_t`). -/
inductive sp_register_t where
  | PC | NPC | IR | A | B | IMM | COND | ALU_OUTPUT | LMD
  deriving DecidableEq, Repr

/-- Opcodes of the integer pipeline: the sixteen mnemonics of `instr_names`
in `sim_pipe.cc`, in the order of the enumeration. -/
inductive opcode_t where
  | LW | SW | ADD | ADDI | SUB | SUBI | XOR
  | BEQZ | BNEZ | BLTZ | BGTZ | BLEZ | BGEZ | JUMP | EOP | NOP
  deriving DecidableEq, Repr

/-- Pipeline stages (`stage_t`). -/
inductive stage_t where
  | IF | ID | EXE | MEM | WB
  deriving DecidableEq, Repr

/-- Decoded instruction (`instruction_t`). -/
structure instruction_t where
  opcode : opcode_t
  src1 : Nat
  src2 : Nat
  dest : Nat
  immediate : Nat
  label : String
  deriving DecidableEq, Repr

/-! ## Arithmetic on `unsigned` and `int` -/

/-- Number of values of a 32-bit word. -/
def WORD : Nat := 2 ^ 32

/-- Unsigned addition `x + y`. -/
def add32 (x y : Nat) : Nat := (x + y) % WORD

/-- Unsigned subtraction `x - y`: wraps around below zero. -/
def sub32 (x y : Nat) : Nat := (x + (WORD - y % WORD)) % WORD

/-- Unsigned left shift `x << k`. -/
def shl32 (x k : Nat) : Nat := (x <<< k) % WORD

/-- Conversion `(int)a` of an `unsigned` to `int`: the values from `2 ^ 31`
upwards become negative. -/
def to_int (a : Nat) : Int := if a < 2 ^ 31 then (a : Int) else (a : Int) - 2 ^ 32

/-- Conversion of an `int` to `unsigned` (as in `return (-1)` from a function
returning `unsigned`). -/
def to_unsigned (i : Int) : Nat := (i % 2 ^ 32).toNat

/-! ## Helper functions -/

/-- Implements the ALU operations (`alu`). -/
def alu (opcode : opcode_t) (a b imm npc : Nat) : Nat :=
  match opcode with
  | .ADD => add32 a b
  | .ADDI => add32 a imm
  | .SUB => sub32 a b
  | .SUBI => sub32 a imm
  | .XOR => a ^^^ b
  | .LW => add32 a imm
  | .SW => add32 a imm
  | .BEQZ => add32 npc imm
  | .BNEZ => add32 npc imm
  | .BGTZ => add32 npc imm
  | .BGEZ => add32 npc imm
  | .BLTZ => add32 npc imm
  | .BLEZ => add32 npc imm
  | .JUMP => add32 npc imm
  | _ => to_unsigned (-1)

/-- Returns true if the instruction is a taken branch or jump
(`taken_branch`). -/
def taken_branch (opcode : opcode_t) (a : Nat) : Bool :=
  match opcode with
  | .BEQZ => if a = 0 then true else false
  | .BNEZ => if a ≠ 0 then true else false
  | .BGTZ => if to_int a > 0 then true else false
  | .BGEZ => if to_int a ≥ 0 then true else false
  | .BLTZ => if to_int a < 0 then true else false
  | .BLEZ => if to_int a ≤ 0 then true else false
  | .JUMP => true
  | _ => false

/-- Branch and jump opcodes (`is_branch`). -/
def is_branch (opcode : opcode_t) : Bool :=
  opcode = .BEQZ || opcode = .BNEZ || opcode = .BLTZ || opcode = .BLEZ ||
    opcode = .BGTZ || opcode = .BGEZ || opcode = .JUMP

/-- Load and store opcodes (`is_memory`). -/
def is_memory (opcode : opcode_t) : Bool :=
  opcode = .LW || opcode = .SW

/-- Register-register arithmetic opcodes (`is_int_r`). -/
def is_int_r (opcode : opcode_t) : Bool :=
  opcode = .ADD || opcode = .SUB || opcode = .XOR

/-- Register-immediate arithmetic opcodes (`is_int_imm`). -/
def is_int_imm (opcode : opcode_t) : Bool :=
  opcode = .ADDI || opcode = .SUBI

/-! ## Byte conversion

`int2char` and `char2int` copy the object representation of an `unsigned`
with `memcpy`; which byte comes first is a property of the host, so the byte
order is a parameter of the model.  `sizeof (unsigned)` is 4. -/

/-- Byte order of the host the simulator is compiled for. -/
inductive byte_order where
  | little_endian | big_endian
  deriving DecidableEq, Repr

/-- Byte number `k` (in address order) of the object representation of the
`unsigned` `value`. -/
def object_byte (host : byte_order) (value k : Nat) : Nat :=
  match host with
  | .little_endian => value / 256 ^ k % 256
  | .big_endian => value / 256 ^ (3 - k) % 256

/-- The `unsigned` whose object representation is the bytes `b0 b1 b2 b3`
(in address order). -/
def object_value (host : byte_order) (b0 b1 b2 b3 : Nat) : Nat :=
  match host with
  | .little_endian => b0 + 256 * b1 + 65536 * b2 + 16777216 * b3
  | .big_endian => b3 + 256 * b2 + 65536 * b1 + 16777216 * b0

/-- Memory `m` with cell `i` set to `v`. -/
def store {α : Type} (m : Nat → α) (i : Nat) (v : α) : Nat → α :=
  fun j => if j = i then v else m j

/-- Converts an integer into an array of unsigned char (`int2char`): the four
bytes of `value` are copied to `buffer`, `buffer + 1`, `buffer + 2`,
`buffer + 3` of the memory `mem`. -/
def int2char (host : byte_order) (value : Nat) (mem : Nat → Nat) (buffer : Nat) :
    Nat → Nat :=
  store (store (store (store mem buffer (object_byte host value 0))
    (buffer + 1) (object_byte host value 1))
    (buffer + 2) (object_byte host value 2))
    (buffer + 3) (object_byte host value 3)

/-- Converts an array of char into an integer (`char2int`): reads the four
bytes at `buffer` of the memory `mem`. -/
def char2int (host : byte_order) (mem : Nat → Nat) (buffer : Nat) : Nat :=
  object_value host (mem buffer) (mem (buffer + 1)) (mem (buffer + 2)) (mem (buffer + 3))

/-! ## Simulator state -/

/-- Data members of class `sim_pipe`.  The arrays `instr_memory`, `ir` and
the heap block `data_memory` are maps from index to content; their valid
indices are those below `PROGRAM_SIZE`, `NUM_STAGES - 1` and
`data_memory_size`.  The class declares no register file and no pipeline
registers other than `ir`. -/
structure sim_pipe where
  instr_memory : Nat → instruction_t
  instr_base_address : Nat
  data_memory : Nat → Nat
  data_memory_size : Nat
  data_memory_latency : Nat
  clock_cycles : Nat
  stalls : Nat
  instructions_executed : Nat
  ir : Nat → instruction_t

/-- Writes an integer value to data memory at the specified address
(`write_memory`).  The function does not check the address; a write that
leaves the allocated block has no defined result, modelled by `none`. -/
def write_memory (host : byte_order) (s : sim_pipe) (address value : Nat) :
    Option sim_pipe :=
  if address + 4 ≤ s.data_memory_size then
    some { s with data_memory := int2char host value s.data_memory address }
  else none

/-- Execution statistics (`get_clock_cycles`). -/
def get_clock_cycles (s : sim_pipe) : Nat := s.clock_cycles

/-- Execution statistics (`get_instructions_executed`). -/
def get_instructions_executed (s : sim_pipe) : Nat := s.instructions_executed

/-- Execution statistics (`get_stalls`). -/
def get_stalls (s : sim_pipe) : Nat := s.stalls

/-- First loop of `reset`: `for (i = 0; i < n; i++) data_memory[i] = 0xFF`. -/
def reset_data_memory : Nat → (Nat → Nat) → (Nat → Nat)
  | 0, m => m
  | n + 1, m => store (reset_data_memory n m) n 0xFF

/-- Body of the instruction loops of `reset`: the five assignments to one
instruction record (the field `label` is not assigned). -/
def reset_instruction (instr : instruction_t) : instruction_t :=
  { instr with opcode := .NOP, src1 := UNDEFINED, src2 := UNDEFINED,
               dest := UNDEFINED, immediate := UNDEFINED }

/-- Instruction loops of `reset`: `for (i = 0; i < n; i++)` applying
`reset_instruction` to slot `i`. -/
def reset_instructions : Nat → (Nat → instruction_t) → (Nat → instruction_t)
  | 0, m => m
  | n + 1, m =>
    let m1 := reset_instructions n m
    store m1 n (reset_instruction (m1 n))

/-- Resets the state of the pipeline simulator (`reset`).  The two
initialisations marked TODO in the source (general purpose registers,
pipeline registers) are absent. -/
def reset (s : sim_pipe) : sim_pipe :=
  { s with
    data_memory := reset_data_memory s.data_memory_size s.data_memory
    instr_memory := reset_instructions PROGRAM_SIZE s.instr_memory
    instr_base_address := UNDEFINED
    ir := reset_instructions (NUM_STAGES - 1) s.ir
    clock_cycles := 0
    stalls := 0
    instructions_executed := 0 }

/-- Instruction record before any assignment: the `label` string is
default-constructed (empty); the other fields are not initialised by the
constructor and are overwritten by `reset`, they are given the value that
`reset` assigns. -/
def blank_instruction : instruction_t :=
  { opcode := .NOP, src1 := UNDEFINED, src2 := UNDEFINED, dest := UNDEFINED,
    immediate := UNDEFINED, label := "" }

/-- Initializes the pipeline simulator (constructor `sim_pipe::sim_pipe`):
stores the two parameters, allocates the data memory and calls `reset`.
The freshly allocated bytes and the members the constructor does not assign
are written by `reset` before anything reads them. -/
def sim_pipe_init (mem_size mem_latency : Nat) : sim_pipe :=
  reset
    { instr_memory := fun _ => blank_instruction
      instr_base_address := 0
      data_memory := fun _ => 0
      data_memory_size := mem_size
      data_memory_latency := mem_latency
      clock_cycles := 0
      stalls := 0
      instructions_executed := 0
      ir := fun _ => blank_instruction }

/-- Returns value of special purpose register (`get_sp_register`): the body
is `return 0`. -/
def get_sp_register (_s : sim_pipe) (_reg : sp_register_t) (_stage : stage_t) : Nat := 0

/-- Returns value of general purpose register (`get_gp_register`): the body
is `return 0`. -/
def get_gp_register (_s : sim_pipe) (_reg : Nat) : Int := 0

/-- Sets the value of referenced general purpose register
(`set_gp_register`): the body is empty. -/
def set_gp_register (s : sim_pipe) (_reg : Nat) (_value : Int) : sim_pipe := s

/-! ## The simulation loop -/

/-- One iteration of the main simulation loop of `run`.  The five stage
sections hold comments only; the one statement of the body is
`clock_cycles++`. -/
def cycle (s : sim_pipe) : sim_pipe :=
  { s with clock_cycles := add32 s.clock_cycles 1 }

/-- Main simulation loop of `run`:
`while (cycles == 0 || clock_cycles - start_cycles != cycles) body`.
Each unit of `fuel` pays for one evaluation of the loop condition; `none`
means the loop is still running when the fuel is used up. -/
def run_loop (cycles start_cycles : Nat) : Nat → sim_pipe → Option sim_pipe
  | 0, _ => none
  | fuel + 1, s =>
    if cycles = 0 ∨ sub32 s.clock_cycles start_cycles ≠ cycles then
      run_loop cycles start_cycles fuel (cycle s)
    else some s

/-- Runs the simulator (`run`): records `start_cycles`, then enters the main
loop (the block under `if (clock_cycles == 0)` is empty). -/
def run (fuel cycles : Nat) (s : sim_pipe) : Option sim_pipe :=
  run_loop cycles s.clock_cycles fuel s

/-! ## Program loading

`load_program` reads the assembly file line by line with `strtok`, `atoi`
and `strtoul`.  The model starts from the tokens of each line: the label in
front of the opcode (when the first token is no mnemonic), the opcode the
mnemonic maps to, the numbers read from the operand tokens in the order in
which they are written, and the label a branch or jump names. -/

/-- One line of the assembly file after tokenisation.  `label` is the first
token without its last character when that token is not a mnemonic; `opcode`
is the result of the lookup in the `opcodes` map (`none` when the lookup
fails); `par1`, `par2`, `par3` are the numeric operands in textual order;
`target` is the label operand of a branch or jump. -/
structure asm_line where
  label : Option String
  opcode : Option opcode_t
  par1 : Nat
  par2 : Nat
  par3 : Nat
  target : String
  deriving DecidableEq, Repr

/-- Lookup `labels[name]` in the `std::map` of labels: the most recent
binding of `name`, or the value-initialised entry 0 when there is none. -/
def labels_lookup (labels : List (String × Nat)) (name : String) : Nat :=
  match labels.find? (fun e => e.1 == name) with
  | some e => e.2
  | none => 0

/-- The `switch` on the opcode in the parsing loop of `load_program`: the
assignment of the opcode followed by the assignments of the operands. -/
def parse_operands (line : asm_line) (op : opcode_t) (instr : instruction_t) :
    instruction_t :=
  let instr := { instr with opcode := op }
  match op with
  | .ADD | .SUB | .XOR =>
    { instr with dest := line.par1, src1 := line.par2, src2 := line.par3 }
  | .ADDI | .SUBI =>
    { instr with dest := line.par1, src1 := line.par2, immediate := line.par3 }
  | .LW =>
    { instr with dest := line.par1, immediate := line.par2, src1 := line.par3 }
  | .SW =>
    { instr with src2 := line.par1, immediate := line.par2, src1 := line.par3 }
  | .BEQZ | .BNEZ | .BLTZ | .BGTZ | .BLEZ | .BGEZ =>
    { instr with src1 := line.par1, label := line.target }
  | .JUMP => { instr with label := line.target }
  | _ => instr

/-- Parsing loop of `load_program` (`while (getline (fin, line))`), with
`instruction_nr` the number of lines read so far.  A line whose opcode token
is no mnemonic makes the source dereference the end iterator of the map, and
line number `PROGRAM_SIZE` is written behind the array: both have no defined
result (`none`). -/
def parse_lines : List asm_line → Nat → List (String × Nat) → (Nat → instruction_t) →
    Option (List (String × Nat) × (Nat → instruction_t))
  | [], _, labels, im => some (labels, im)
  | line :: rest, instruction_nr, labels, im =>
    let labels1 :=
      match line.label with
      | some l => (l, instruction_nr) :: labels
      | none => labels
    match line.opcode with
    | none => none
    | some op =>
      if instruction_nr < PROGRAM_SIZE then
        parse_lines rest (instruction_nr + 1) labels1
          (store im instruction_nr (parse_operands line op (im instruction_nr)))
      else none

/-- Test of the label loop of `load_program`: the seven opcodes whose
immediate is rebuilt from the label. -/
def has_label (op : opcode_t) : Bool :=
  op = .BLTZ || op = .BNEZ || op = .BGTZ || op = .BEQZ ||
    op = .BGEZ || op = .BLEZ || op = .JUMP

/-- Label loop of `load_program` (`while (true)` from `i = 0`), with `room`
the number of slots from `i` to the end of the array.  The loop leaves at the
first `EOP`; reading slot `PROGRAM_SIZE` has no defined result (`none`). -/
def resolve_labels (labels : List (String × Nat)) :
    Nat → Nat → (Nat → instruction_t) → Option (Nat → instruction_t)
  | 0, _, _ => none
  | room + 1, i, im =>
    let instr := im i
    if instr.opcode = .EOP then some im
    else if has_label instr.opcode then
      resolve_labels labels room (i + 1)
        (store im i { im i with
          immediate := shl32 (sub32 (sub32 (labels_lookup labels instr.label) i) 1) 2 })
    else resolve_labels labels room (i + 1) im

/-- The immediate the label loop of `load_program` stores at index `i` for a
label bound to line `L`: `(labels[instr.label] - i - 1) << 2`. -/
def label_immediate (L i : Nat) : Nat := shl32 (sub32 (sub32 L i) 1) 2

/-- Loads the assembly program into instruction memory at the specified
address (`load_program`), from the tokenised lines of the file. -/
def load_program (lines : List asm_line) (base_address : Nat) (s : sim_pipe) :
    Option sim_pipe :=
  match parse_lines lines 0 [] s.instr_memory with
  | none => none
  | some (labels, im) =>
    match resolve_labels labels PROGRAM_SIZE 0 im with
    | none => none
    | some im1 => some { s with instr_base_address := base_address, instr_memory := im1 }

/-- Tokens of a line holding a register-immediate instruction
`OP Rdest Rsrc1 imm`, a register-register instruction `OP Rdest Rsrc1 Rsrc2`
or an instruction without operands, with no label in front. -/
def plain_line (op : opcode_t) (par1 par2 par3 : Nat) : asm_line :=
  { label := none, opcode := some op, par1 := par1, par2 := par2, par3 := par3,
    target := "" }

/-- The program `EOP`. -/
def eop_program : List asm_line := [plain_line .EOP 0 0 0]

/-- The program `ADDI R1 R0 5`, `ADD R2 R1 R1`, `EOP`. -/
def addi_add_program : List asm_line :=
  [plain_line .ADDI 1 0 5, plain_line .ADD 2 1 1, plain_line .EOP 0 0 0]

/-- Reading of the 32-bit pattern `a` as a signed integer in two's
complement, following the specification's words: the low 31 bits count
positively and bit 31 weighs `-2 ^ 31`. -/
def twos_complement (a : Nat) : Int :=
  ((a % 2 ^ 31 : Nat) : Int) - 2 ^ 31 * ((a / 2 ^ 31 % 2 : Nat) : Int)

/-- The program `loop: ADDI R1 R1 1`, `BNEZ R1 loop`, `EOP`: a backward
branch to line 0. -/
def loop_program : List asm_line :=
  [{ label := some "loop", opcode := some .ADDI, par1 := 1, par2 := 1, par3 := 1, target := "" },
   { label := none, opcode := some .BNEZ, par1 := 1, par2 := 0, par3 := 0, target := "loop" },
   plain_line .EOP 0 0 0]

/-- The program `ADD R1 R2 R3`, `JUMP nowhere`, `EOP`: the jump names a label
that no line defines. -/
def jump_nowhere_program : List asm_line :=
  [plain_line .ADD 1 2 3,
   { label := none, opcode := some .JUMP, par1 := 0, par2 := 0, par3 := 0, target := "nowhere" },
   plain_line .EOP 0 0 0]

/-- The program `ADD R1 R2 R3`, `EOP`: one arithmetic instruction. -/
def add_program : List asm_line := [plain_line .ADD 1 2 3, plain_line .EOP 0 0 0]

/-- The ALU as the specification words it: the arithmetic, address and
branch-target functions of the opcodes, and a fatal error (`none`) for an
opcode that has no ALU function. -/
def alu_spec (opcode : opcode_t) (a b imm npc : Nat) : Option Nat :=
  match opcode with
  | .ADD => some ((a + b) % 2 ^ 32)
  | .ADDI => some ((a + imm) % 2 ^ 32)
  | .SUB => some (((a : Int) - (b : Int)) % 2 ^ 32).toNat
  | .SUBI => some (((a : Int) - (imm : Int)) % 2 ^ 32).toNat
  | .XOR => some (a ^^^ b)
  | .LW | .SW => some ((a + imm) % 2 ^ 32)
  | .BEQZ | .BNEZ | .BGTZ | .BGEZ | .BLTZ | .BLEZ | .JUMP => some ((npc + imm) % 2 ^ 32)
  | .EOP | .NOP => none

/-! ## Instructions per cycle

`get_IPC` divides in type `float`.  Finite values are kept as rationals and
the rounding of the host to the nearest `float` is a parameter `fl` of the
model; a division whose divisor is zero is reported as such (IEEE 754 gives
an infinity or a NaN there, nothing is trapped). -/

/-- Result of a division in type `float`: a value, or the report that the
divisor was zero together with the dividend. -/
inductive float_quotient where
  | value (q : ℚ)
  | zero_divide (dividend : ℚ)
  deriving DecidableEq

/-- Division `x / y` of two `float` values. -/
def float_div (fl : ℚ → ℚ) (x y : ℚ) : float_quotient :=
  if y = 0 then .zero_divide x else .value (fl (x / y))

/-- Instructions per cycle (`get_IPC`):
`return (float) instructions_executed / clock_cycles`; both counters are
converted to `float` and divided, with no test in front of the division. -/
def get_IPC (fl : ℚ → ℚ) (s : sim_pipe) : float_quotient :=
  float_div fl (fl (s.instructions_executed : ℚ)) (fl (s.clock_cycles : ℚ))

/-! ## Execution units of the floating-point variant

`sim_pipe_fp.h` declares the pool of execution units and `init_exec_unit`;
the body of `init_exec_unit` is not among the sources. -/

/-- Capacity of the pool of execution units (`#define MAX_UNITS 10`). -/
def MAX_UNITS : Nat := 10

/-- Types of execution unit (`exe_unit_t`). -/
inductive exe_unit_t where
  | INTEGER | ADDER | MULTIPLIER | DIVIDER
  deriving DecidableEq, Repr

/-- Execution unit (`unit_t`).  The instruction record is the one of the
integer pipeline; the configuration of the pool does not look at it. -/
structure unit_t where
  type : exe_unit_t
  latency : Nat
  busy : Nat
  instruction : instruction_t
  deriving DecidableEq, Repr

/-- Members `exec_units` and `num_units` of class `sim_pipe_fp`; the valid
indices of `exec_units` are those below `MAX_UNITS`. -/
structure unit_pool where
  exec_units : Nat → unit_t
  num_units : Nat

/-- The pool before any unit is registered: `num_units` is 0 and every slot
holds an idle unit. -/
def empty_pool : unit_pool :=
  { exec_units := fun _ =>
      { type := .INTEGER, latency := 0, busy := 0, instruction := blank_instruction }
    num_units := 0 }

/-- Registers `instances` units of one type and latency in the next free
slots of the pool, each free (`busy = 0`) and holding no instruction. -/
def add_units (exec_unit : exe_unit_t) (latency : Nat) : Nat → unit_pool → unit_pool
  | 0, p => p
  | instances + 1, p =>
    add_units exec_unit latency instances
      { exec_units := store p.exec_units p.num_units
          { type := exec_unit, latency := latency, busy := 0,
            instruction := blank_instruction }
        num_units := p.num_units + 1 }

/-- Modelled from the spec: the body of `init_exec_unit`, which
`sim_pipe_fp.h` only declares.  Adds `instances` execution units of the given
type and latency to the pool; a request for more instances than the pool has
room for is rejected at configuration time (first component `false`) and the
pool stays as it was. -/
def init_exec_unit (p : unit_pool) (exec_unit : exe_unit_t) (latency instances : Nat) :
    Bool × unit_pool :=
  if p.num_units + instances ≤ MAX_UNITS then
    (true, add_units exec_unit latency instances p)
  else (false, p)

/-- A sequence of `init_exec_unit` calls, each given by the type, the latency
and the number of instances, applied to a pool from left to right. -/
def init_exec_units : List (exe_unit_t × Nat × Nat) → unit_pool → unit_pool
  | [], p => p
  | (exec_unit, latency, instances) :: calls, p =>
    init_exec_units calls (init_exec_unit p exec_unit latency instances).2

/-! ## Shared lemmas -/

theorem sub32_add_offset (c0 k : Nat) (hk : k < WORD) :
    sub32 ((c0 + k) % WORD) c0 = k := by
  unfold sub32
  simp only [WORD] at *
  omega

theorem cycle_iterate_clock (n : Nat) (s : sim_pipe) (hs : s.clock_cycles < WORD) :
    (cycle^[n] s).clock_cycles = (s.clock_cycles + n) % WORD := by
  induction n generalizing s with
  | zero => simp [Nat.mod_eq_of_lt hs]
  | succ n ih =>
    have h1 : (cycle s).clock_cycles < WORD := by
      simp only [cycle, add32]
      exact Nat.mod_lt _ (by simp [WORD])
    rw [Function.iterate_succ_apply, ih (cycle s) h1]
    simp only [cycle, add32, WORD] at *
    omega

theorem cycle_iterate_frame (n : Nat) (s : sim_pipe) :
    (cycle^[n] s).stalls = s.stalls ∧
    (cycle^[n] s).instructions_executed = s.instructions_executed ∧
    (cycle^[n] s).instr_memory = s.instr_memory ∧
    (cycle^[n] s).data_memory = s.data_memory := by
  induction n generalizing s with
  | zero => simp
  | succ n ih =>
    rw [Function.iterate_succ_apply]
    exact ih (cycle s)

theorem run_loop_zero_cycles (start_cycles fuel : Nat) (s : sim_pipe) :
    run_loop 0 start_cycles fuel s = none := by
  induction fuel generalizing s with
  | zero => rfl
  | succ fuel ih => simp [run_loop, ih]

theorem run_loop_exact (cycles c0 : Nat) (hc : cycles < WORD)
    (hpos : 0 < cycles) (fuel k : Nat) (t : sim_pipe) (hk : k ≤ cycles)
    (ht : t.clock_cycles = (c0 + k) % WORD) :
    run_loop cycles c0 fuel t =
      if cycles - k < fuel then some (cycle^[cycles - k] t) else none := by
  induction fuel generalizing k t with
  | zero => simp [run_loop]
  | succ fuel ih =>
    have hsub : sub32 t.clock_cycles c0 = k := by
      rw [ht]
      exact sub32_add_offset c0 k (lt_of_le_of_lt hk hc)
    by_cases hkc : k = cycles
    · subst hkc
      simp [run_loop, hsub, Nat.pos_iff_ne_zero.mp hpos]
    · have hlt : k < cycles := lt_of_le_of_ne hk hkc
      have ht1 : (cycle t).clock_cycles = (c0 + (k + 1)) % WORD := by
        simp only [cycle, add32, ht, WORD]
        omega
      have hstep := ih (k + 1) (cycle t) hlt ht1
      have hsplit : cycles - k = (cycles - (k + 1)) + 1 := by omega
      simp only [run_loop, hsub, hkc, Nat.pos_iff_ne_zero.mp hpos, ne_eq, not_false_eq_true,
        or_true, if_true, false_or]
      rw [hstep, hsplit, Function.iterate_succ_apply]
      simp

theorem to_int_eq_twos_complement (a : Nat) (ha : a < 2 ^ 32) :
    to_int a = twos_complement a := by
  unfold to_int twos_complement
  split <;> omega

theorem store_same {α : Type} (m : Nat → α) (i : Nat) (v : α) : store m i v i = v := by
  simp [store]

theorem store_other {α : Type} (m : Nat → α) (i j : Nat) (v : α) (h : j ≠ i) :
    store m i v j = m j := by
  simp [store, h]

theorem reset_data_memory_apply (n : Nat) (m : Nat → Nat) (i : Nat) :
    reset_data_memory n m i = if i < n then 0xFF else m i := by
  induction n with
  | zero => simp [reset_data_memory]
  | succ n ih =>
    simp only [reset_data_memory, store]
    by_cases h : i = n
    · simp [h]
    · rw [if_neg h, ih]
      by_cases h2 : i < n
      · simp [h2, Nat.lt_succ_of_lt h2]
      · have h3 : ¬ i < n + 1 := by omega
        simp [h2, h3]

theorem byte_of_shift_mask (v k : Nat) : (v >>> (8 * k)) &&& 0xFF = v / 256 ^ k % 256 := by
  have h1 : (0xFF : Nat) = 2 ^ 8 - 1 := by norm_num
  have h2 : (256 : Nat) ^ k = 2 ^ (8 * k) := by rw [pow_mul]; norm_num
  rw [h1, Nat.and_pow_two_sub_one_eq_mod, Nat.shiftRight_eq_div_pow, h2]

theorem int2char_bytes (host : byte_order) (v : Nat) (mem : Nat → Nat) (buffer : Nat) :
    int2char host v mem buffer buffer = object_byte host v 0 ∧
    int2char host v mem buffer (buffer + 1) = object_byte host v 1 ∧
    int2char host v mem buffer (buffer + 2) = object_byte host v 2 ∧
    int2char host v mem buffer (buffer + 3) = object_byte host v 3 := by
  simp [int2char, store]

theorem object_value_bytes (host : byte_order) (v : Nat) (hv : v < 2 ^ 32) :
    object_value host (object_byte host v 0) (object_byte host v 1)
      (object_byte host v 2) (object_byte host v 3) = v := by
  cases host <;> simp only [object_value, object_byte] <;> omega

theorem parse_operands_opcode (line : asm_line) (op : opcode_t) (instr : instruction_t) :
    (parse_operands line op instr).opcode = op := by
  cases op <;> rfl

theorem parse_operands_label (line : asm_line) (op : opcode_t) (instr : instruction_t)
    (h : has_label op = true) : (parse_operands line op instr).label = line.target := by
  cases op <;> first | rfl | (exact absurd h (by decide))

theorem labels_lookup_cons (l name : String) (n : Nat) (labels : List (String × Nat)) :
    labels_lookup ((l, n) :: labels) name = if l = name then n else labels_lookup labels name := by
  by_cases h : l = name
  · simp [labels_lookup, List.find?, h]
  · have hb : (l == name) = false := by simp [h]
    simp only [labels_lookup, List.find?, hb, if_neg h]

theorem parse_lines_cons (line : asm_line) (rest : List asm_line) (nr : Nat)
    (labels : List (String × Nat)) (im : Nat → instruction_t)
    (r : List (String × Nat) × (Nat → instruction_t))
    (h : parse_lines (line :: rest) nr labels im = some r) :
    ∃ op, line.opcode = some op ∧ nr < PROGRAM_SIZE ∧
      parse_lines rest (nr + 1)
        (match line.label with
          | some l => (l, nr) :: labels
          | none => labels)
        (store im nr (parse_operands line op (im nr))) = some r := by
  simp only [parse_lines] at h
  cases hop : line.opcode with
  | none => simp [hop] at h
  | some op =>
    simp only [hop] at h
    by_cases hnr : nr < PROGRAM_SIZE
    · rw [if_pos hnr] at h
      exact ⟨op, rfl, hnr, h⟩
    · rw [if_neg hnr] at h
      exact absurd h (by simp)

theorem parse_lines_frame_low (lines : List asm_line) :
    ∀ (nr : Nat) (labels : List (String × Nat)) (im : Nat → instruction_t)
      (r : List (String × Nat) × (Nat → instruction_t)),
      parse_lines lines nr labels im = some r → ∀ k, k < nr → r.2 k = im k := by
  induction lines with
  | nil =>
    intro nr labels im r h k _
    simp only [parse_lines, Option.some.injEq] at h
    rw [← h]
  | cons line rest ih =>
    intro nr labels im r h k hk
    obtain ⟨op, _, _, hrest⟩ := parse_lines_cons line rest nr labels im r h
    rw [ih _ _ _ r hrest k (by omega)]
    exact store_other _ _ _ _ (by omega)

theorem parse_lines_slot (lines : List asm_line) :
    ∀ (nr : Nat) (labels : List (String × Nat)) (im : Nat → instruction_t)
      (r : List (String × Nat) × (Nat → instruction_t)),
      parse_lines lines nr labels im = some r →
      ∀ (j : Nat) (line : asm_line), lines[j]? = some line →
        ∃ op, line.opcode = some op ∧
          r.2 (nr + j) = parse_operands line op (im (nr + j)) := by
  induction lines with
  | nil =>
    intro nr labels im r _ j line hj
    simp at hj
  | cons head rest ih =>
    intro nr labels im r h j line hj
    obtain ⟨op, hop, _, hrest⟩ := parse_lines_cons head rest nr labels im r h
    cases j with
    | zero =>
      simp only [List.getElem?_cons_zero, Option.some.injEq] at hj
      subst hj
      refine ⟨op, hop, ?_⟩
      rw [Nat.add_zero, parse_lines_frame_low rest _ _ _ r hrest nr (by omega)]
      exact store_same _ _ _
    | succ j =>
      simp only [List.getElem?_cons_succ] at hj
      obtain ⟨op1, hop1, hval⟩ := ih _ _ _ r hrest j line hj
      refine ⟨op1, hop1, ?_⟩
      have e1 : nr + (j + 1) = nr + 1 + j := by omega
      rw [e1, hval, store_other _ _ _ _ (by omega)]

theorem parse_lines_lookup_undefined (name : String) (lines : List asm_line) :
    ∀ (nr : Nat) (labels : List (String × Nat)) (im : Nat → instruction_t)
      (r : List (String × Nat) × (Nat → instruction_t)),
      parse_lines lines nr labels im = some r →
      (∀ line ∈ lines, line.label ≠ some name) →
      labels_lookup r.1 name = labels_lookup labels name := by
  induction lines with
  | nil =>
    intro nr labels im r h _
    simp only [parse_lines, Option.some.injEq] at h
    rw [← h]
  | cons head rest ih =>
    intro nr labels im r h hno
    obtain ⟨op, _, _, hrest⟩ := parse_lines_cons head rest nr labels im r h
    rw [ih _ _ _ r hrest (fun line hl => hno line (List.mem_cons_of_mem _ hl))]
    have hhead := hno head (List.mem_cons_self _ _)
    cases hl : head.label with
    | none => rfl
    | some l =>
      have hne : l ≠ name := by
        intro he
        exact hhead (by rw [hl, he])
      simp only [labels_lookup_cons, if_neg hne]

theorem parse_lines_lookup_defined (name : String) (lines : List asm_line) :
    ∀ (nr : Nat) (labels : List (String × Nat)) (im : Nat → instruction_t)
      (r : List (String × Nat) × (Nat → instruction_t)),
      parse_lines lines nr labels im = some r →
      ∀ (L : Nat) (line : asm_line), lines[L]? = some line → line.label = some name →
        (∀ (j : Nat) (lj : asm_line), L < j → lines[j]? = some lj → lj.label ≠ some name) →
        labels_lookup r.1 name = nr + L := by
  induction lines with
  | nil =>
    intro nr labels im r _ L line hL
    simp at hL
  | cons head rest ih =>
    intro nr labels im r h L line hL hdef hlast
    obtain ⟨op, _, _, hrest⟩ := parse_lines_cons head rest nr labels im r h
    cases L with
    | zero =>
      simp only [List.getElem?_cons_zero, Option.some.injEq] at hL
      subst hL
      have hno : ∀ l ∈ rest, l.label ≠ some name := by
        intro l hl
        obtain ⟨j, hj⟩ := List.getElem?_of_mem hl
        exact hlast (j + 1) l (by omega) (by simpa using hj)
      rw [parse_lines_lookup_undefined name rest _ _ _ r hrest hno, hdef]
      simp [labels_lookup_cons]
    | succ L =>
      simp only [List.getElem?_cons_succ] at hL
      have hlast1 : ∀ (j : Nat) (lj : asm_line), L < j → rest[j]? = some lj →
          lj.label ≠ some name := by
        intro j lj hj hget
        exact hlast (j + 1) lj (by omega) (by simpa using hget)
      rw [ih _ _ _ r hrest L line hL hdef hlast1]
      omega

theorem parse_lines_ok (lines : List asm_line) :
    ∀ (nr : Nat) (labels : List (String × Nat)) (im : Nat → instruction_t),
      (∀ line ∈ lines, ∃ op, line.opcode = some op) →
      nr + lines.length ≤ PROGRAM_SIZE →
      ∃ r, parse_lines lines nr labels im = some r := by
  induction lines with
  | nil =>
    intro nr labels im _ _
    exact ⟨_, rfl⟩
  | cons head rest ih =>
    intro nr labels im hvalid hlen
    obtain ⟨op, hop⟩ := hvalid head (List.mem_cons_self _ _)
    have hnr : nr < PROGRAM_SIZE := by
      simp only [List.length_cons] at hlen
      omega
    have hlen1 : nr + 1 + rest.length ≤ PROGRAM_SIZE := by
      simp only [List.length_cons] at hlen
      omega
    obtain ⟨r, hr⟩ := ih (nr + 1)
      (match head.label with
        | some l => (l, nr) :: labels
        | none => labels)
      (store im nr (parse_operands head op (im nr)))
      (fun line hl => hvalid line (List.mem_cons_of_mem _ hl)) hlen1
    refine ⟨r, ?_⟩
    simp only [parse_lines, hop, if_pos hnr]
    exact hr

theorem store_immediate_opcode (im : Nat → instruction_t) (i v k : Nat) :
    (store im i { im i with immediate := v } k).opcode = (im k).opcode := by
  by_cases hk : k = i
  · subst hk
    rw [store_same]
  · rw [store_other _ _ _ _ hk]

theorem resolve_labels_exact (labels : List (String × Nat)) :
    ∀ (room i : Nat) (im : Nat → instruction_t) (e : Nat),
      i ≤ e → (im e).opcode = .EOP →
      (∀ k, i ≤ k → k < e → (im k).opcode ≠ .EOP) → e - i < room →
      resolve_labels labels room i im = some (fun j =>
        if i ≤ j ∧ j < e ∧ has_label (im j).opcode = true then
          { im j with immediate := label_immediate (labels_lookup labels (im j).label) j }
        else im j) := by
  intro room
  induction room with
  | zero =>
    intro i im e _ _ _ h
    omega
  | succ room ih =>
    intro i im e hie heop hfirst hroom
    by_cases hi : i = e
    · subst hi
      simp only [resolve_labels, heop, if_true]
      congr 1
      funext j
      rw [if_neg]
      intro hc
      omega
    · have hlt : i < e := by omega
      have hne : (im i).opcode ≠ .EOP := hfirst i le_rfl hlt
      by_cases hl : has_label (im i).opcode = true
      · simp only [resolve_labels, hne, if_false, hl, if_true]
        rw [ih (i + 1) _ e (by omega)
          (by rw [store_other _ _ _ _ (by omega)]; exact heop)
          (by
            intro k hk1 hk2
            rw [store_other _ _ _ _ (by omega)]
            exact hfirst k (by omega) hk2)
          (by omega)]
        congr 1
        funext j
        by_cases hj : j = i
        · subst hj
          rw [if_neg (by intro hc; omega), store_same, if_pos ⟨le_rfl, hlt, hl⟩]
          rfl
        · rw [store_other _ _ _ _ hj]
          by_cases hc : i ≤ j ∧ j < e ∧ has_label (im j).opcode = true
          · rw [if_pos hc, if_pos ⟨by omega, hc.2.1, hc.2.2⟩]
          · rw [if_neg hc, if_neg]
            intro hc1
            exact hc ⟨by omega, hc1.2.1, hc1.2.2⟩
      · simp only [resolve_labels, hne, if_false, hl, Bool.false_eq_true]
        rw [ih (i + 1) im e (by omega) heop
          (fun k hk1 hk2 => hfirst k (by omega) hk2) (by omega)]
        congr 1
        funext j
        by_cases hj : j = i
        · subst hj
          rw [if_neg (by intro hc; omega), if_neg (by intro hc; exact hl hc.2.2)]
        · by_cases hc : i ≤ j ∧ j < e ∧ has_label (im j).opcode = true
          · rw [if_pos hc, if_pos ⟨by omega, hc.2.1, hc.2.2⟩]
          · rw [if_neg hc, if_neg]
            intro hc1
            exact hc ⟨by omega, hc1.2.1, hc1.2.2⟩

theorem resolve_labels_first_eop (labels : List (String × Nat)) :
    ∀ (room i : Nat) (im im1 : Nat → instruction_t),
      resolve_labels labels room i im = some im1 →
      ∃ e, i ≤ e ∧ e < i + room ∧ (im e).opcode = .EOP ∧
        ∀ k, i ≤ k → k < e → (im k).opcode ≠ .EOP := by
  intro room
  induction room with
  | zero =>
    intro i im im1 h
    simp [resolve_labels] at h
  | succ room ih =>
    intro i im im1 h
    by_cases heop : (im i).opcode = .EOP
    · exact ⟨i, le_rfl, by omega, heop, fun k h1 h2 => by omega⟩
    · by_cases hl : has_label (im i).opcode = true
      · simp only [resolve_labels, heop, if_false, hl, if_true] at h
        obtain ⟨e, h1, h2, h3, h4⟩ := ih (i + 1) _ im1 h
        refine ⟨e, by omega, by omega, ?_, ?_⟩
        · rw [store_immediate_opcode] at h3
          exact h3
        · intro k hk1 hk2
          by_cases hki : k = i
          · subst hki
            exact heop
          · have h5 := h4 k (by omega) hk2
            rw [store_immediate_opcode] at h5
            exact h5
      · simp only [resolve_labels, heop, if_false, hl, Bool.false_eq_true] at h
        obtain ⟨e, h1, h2, h3, h4⟩ := ih (i + 1) im im1 h
        refine ⟨e, by omega, by omega, h3, ?_⟩
        intro k hk1 hk2
        by_cases hki : k = i
        · subst hki
          exact heop
        · exact h4 k (by omega) hk2

theorem exists_first_eop (lines : List asm_line)
    (h : ∃ line ∈ lines, line.opcode = some .EOP) :
    ∃ (e : Nat) (line : asm_line), lines[e]? = some line ∧ line.opcode = some .EOP ∧
      ∀ (j : Nat) (lj : asm_line), j < e → lines[j]? = some lj → lj.opcode ≠ some .EOP := by
  induction lines with
  | nil =>
    obtain ⟨line, hmem, _⟩ := h
    simp at hmem
  | cons head rest ih =>
    by_cases hh : head.opcode = some .EOP
    · refine ⟨0, head, by simp, hh, ?_⟩
      intro j lj hj
      omega
    · obtain ⟨line, hmem, hop⟩ := h
      have hrest : ∃ line ∈ rest, line.opcode = some .EOP := by
        rcases List.mem_cons.mp hmem with h1 | h1
        · subst h1
          exact absurd hop hh
        · exact ⟨line, h1, hop⟩
      obtain ⟨e, le, h1, h2, h3⟩ := ih hrest
      refine ⟨e + 1, le, by simpa using h1, h2, ?_⟩
      intro j lj hj hget
      cases j with
      | zero =>
        simp only [List.getElem?_cons_zero, Option.some.injEq] at hget
        subst hget
        exact hh
      | succ j =>
        simp only [List.getElem?_cons_succ] at hget
        exact h3 j lj (by omega) hget

theorem is_branch_eq_has_label (op : opcode_t) : is_branch op = has_label op := by
  cases op <;> rfl

theorem label_immediate_int (L i : Nat) :
    ((label_immediate L i : Nat) : Int) = (((L : Int) - (i : Int) - 1) * 4) % 2 ^ 32 := by
  simp only [label_immediate, shl32, sub32, WORD, Nat.shiftLeft_eq]
  omega

theorem load_program_some (lines : List asm_line) (base : Nat) (s s1 : sim_pipe)
    (h : load_program lines base s = some s1) :
    ∃ labels im im1, parse_lines lines 0 [] s.instr_memory = some (labels, im) ∧
      resolve_labels labels PROGRAM_SIZE 0 im = some im1 ∧
      s1 = { s with instr_base_address := base, instr_memory := im1 } := by
  unfold load_program at h
  cases hp : parse_lines lines 0 [] s.instr_memory with
  | none => simp [hp] at h
  | some r =>
    obtain ⟨labels, im⟩ := r
    simp only [hp] at h
    cases hr : resolve_labels labels PROGRAM_SIZE 0 im with
    | none => simp [hr] at h
    | some im1 =>
      simp only [hr, Option.some.injEq] at h
      exact ⟨labels, im, im1, rfl, hr, h.symm⟩

theorem load_program_branch_immediate (lines : List asm_line) (base : Nat) (s s1 : sim_pipe)
    (hload : load_program lines base s = some s1)
    (i : Nat) (line_i : asm_line) (op : opcode_t)
    (hi : lines[i]? = some line_i) (hop : line_i.opcode = some op)
    (hbr : has_label op = true)
    (hbefore : ∀ (j : Nat) (lj : asm_line), j < i → lines[j]? = some lj →
      lj.opcode ≠ some .EOP) :
    ∃ labels im, parse_lines lines 0 [] s.instr_memory = some (labels, im) ∧
      (s1.instr_memory i).immediate = label_immediate (labels_lookup labels line_i.target) i := by
  obtain ⟨labels, im, im1, hp, hr, hs1⟩ := load_program_some lines base s s1 hload
  refine ⟨labels, im, hp, ?_⟩
  have hslot : ∀ (j : Nat) (lj : asm_line), lines[j]? = some lj →
      ∃ opj, lj.opcode = some opj ∧ (im j).opcode = opj := by
    intro j lj hj
    obtain ⟨opj, h1, h2⟩ := parse_lines_slot lines 0 [] s.instr_memory (labels, im) hp j lj hj
    refine ⟨opj, h1, ?_⟩
    have h3 : im j = parse_operands lj opj (s.instr_memory j) := by simpa using h2
    rw [h3, parse_operands_opcode]
  have himi : im i = parse_operands line_i op (s.instr_memory i) := by
    obtain ⟨op1, h1, h2⟩ := parse_lines_slot lines 0 [] s.instr_memory (labels, im) hp i line_i hi
    have h3 : op1 = op := by
      rw [hop] at h1
      exact (Option.some.inj h1).symm
    subst h3
    simpa using h2
  have hopi : (im i).opcode = op := by rw [himi, parse_operands_opcode]
  have hlab : (im i).label = line_i.target := by rw [himi, parse_operands_label _ _ _ hbr]
  obtain ⟨e, _, _, heop, hfirst⟩ := resolve_labels_first_eop labels PROGRAM_SIZE 0 im im1 hr
  have hie : i < e := by
    by_contra hcon
    have hle : e ≤ i := by omega
    rcases Nat.lt_or_eq_of_le hle with hlt | heq
    · have hlen : i < lines.length := by
        by_contra hc
        rw [List.getElem?_eq_none (by omega)] at hi
        exact absurd hi (by simp)
      have hget : lines[e]? = some (lines[e]) := List.getElem?_eq_getElem (by omega)
      obtain ⟨ope, h1, h2⟩ := hslot e _ hget
      rw [heop] at h2
      rw [← h2] at h1
      exact hbefore e _ hlt hget h1
    · rw [heq, hopi] at heop
      rw [heop] at hbr
      exact absurd hbr (by decide)
  have hex := resolve_labels_exact labels PROGRAM_SIZE 0 im e (Nat.zero_le _) heop hfirst
    (by omega)
  rw [hr] at hex
  have him1 := Option.some.inj hex
  have hcond : 0 ≤ i ∧ i < e ∧ has_label (im i).opcode = true := ⟨Nat.zero_le _, hie, by rw [hopi]; exact hbr⟩
  rw [hs1]
  simp only [him1, if_pos hcond, hlab]

theorem load_program_ok (lines : List asm_line) (base : Nat) (s : sim_pipe)
    (hlen : lines.length ≤ PROGRAM_SIZE)
    (hvalid : ∀ line ∈ lines, line.opcode ≠ none)
    (e : Nat) (line_e : asm_line) (he : lines[e]? = some line_e)
    (heop : line_e.opcode = some .EOP)
    (hfirst : ∀ (j : Nat) (lj : asm_line), j < e → lines[j]? = some lj →
      lj.opcode ≠ some .EOP) :
    ∃ labels im im1, parse_lines lines 0 [] s.instr_memory = some (labels, im) ∧
      e < PROGRAM_SIZE ∧
      resolve_labels labels (e + 1) 0 im = some im1 ∧
      resolve_labels labels PROGRAM_SIZE 0 im = some im1 ∧
      (∀ j, e ≤ j → im1 j = im j) ∧
      load_program lines base s =
        some { s with instr_base_address := base, instr_memory := im1 } := by
  have hvalid1 : ∀ line ∈ lines, ∃ op, line.opcode = some op := by
    intro line hl
    exact Option.ne_none_iff_exists'.mp (hvalid line hl)
  obtain ⟨r, hp⟩ := parse_lines_ok lines 0 [] s.instr_memory hvalid1 (by omega)
  obtain ⟨labels, im⟩ := r
  have hslot : ∀ (j : Nat) (lj : asm_line), lines[j]? = some lj →
      ∃ opj, lj.opcode = some opj ∧ (im j).opcode = opj := by
    intro j lj hj
    obtain ⟨opj, h1, h2⟩ := parse_lines_slot lines 0 [] s.instr_memory (labels, im) hp j lj hj
    refine ⟨opj, h1, ?_⟩
    have h3 : im j = parse_operands lj opj (s.instr_memory j) := by simpa using h2
    rw [h3, parse_operands_opcode]
  have helen : e < lines.length := by
    by_contra hc
    rw [List.getElem?_eq_none (by omega)] at he
    exact absurd he (by simp)
  have hime : (im e).opcode = .EOP := by
    obtain ⟨ope, h1, h2⟩ := hslot e line_e he
    rw [heop] at h1
    rw [h2]
    exact (Option.some.inj h1).symm
  have himfirst : ∀ k, 0 ≤ k → k < e → (im k).opcode ≠ .EOP := by
    intro k _ hk hc
    have hget : lines[k]? = some (lines[k]) := List.getElem?_eq_getElem (by omega)
    obtain ⟨opk, h1, h2⟩ := hslot k _ hget
    rw [hc] at h2
    rw [← h2] at h1
    exact hfirst k _ hk hget h1
  have hex1 := resolve_labels_exact labels (e + 1) 0 im e (Nat.zero_le _) hime himfirst
    (by omega)
  have hex2 := resolve_labels_exact labels PROGRAM_SIZE 0 im e (Nat.zero_le _) hime himfirst
    (by omega)
  refine ⟨labels, im, _, hp, by omega, hex1, hex2, ?_, ?_⟩
  · intro j hj
    rw [if_neg]
    intro hc
    omega
  · simp only [load_program, hp, hex2]

theorem load_program_counters (lines : List asm_line) (base : Nat) (s s1 : sim_pipe)
    (h : load_program lines base s = some s1) :
    s1.clock_cycles = s.clock_cycles ∧ s1.stalls = s.stalls ∧
    s1.instructions_executed = s.instructions_executed := by
  obtain ⟨_, _, _, _, _, hs1⟩ := load_program_some lines base s s1 h
  rw [hs1]
  exact ⟨rfl, rfl, rfl⟩

theorem add_units_num_units (exec_unit : exe_unit_t) (latency instances : Nat) (p : unit_pool) :
    (add_units exec_unit latency instances p).num_units = p.num_units + instances := by
  induction instances generalizing p with
  | zero => rfl
  | succ n ih =>
    simp only [add_units]
    rw [ih]
    simp only []
    omega

theorem init_exec_unit_capacity (p : unit_pool) (exec_unit : exe_unit_t)
    (latency instances : Nat) (hp : p.num_units ≤ MAX_UNITS) :
    (init_exec_unit p exec_unit latency instances).2.num_units ≤ MAX_UNITS := by
  unfold init_exec_unit
  split
  · rw [add_units_num_units]
    assumption
  · exact hp

theorem init_exec_units_capacity (calls : List (exe_unit_t × Nat × Nat)) (p : unit_pool)
    (hp : p.num_units ≤ MAX_UNITS) : (init_exec_units calls p).num_units ≤ MAX_UNITS := by
  induction calls generalizing p with
  | nil => exact hp
  | cons call calls ih =>
    obtain ⟨exec_unit, latency, instances⟩ := call
    exact ih _ (init_exec_unit_capacity p exec_unit latency instances hp)

theorem cycle_iterate_eq (n : Nat) (s : sim_pipe) :
    cycle^[n] s = { s with clock_cycles := (cycle^[n] s).clock_cycles } := by
  induction n generalizing s with
  | zero => rfl
  | succ n ih =>
    rw [Function.iterate_succ_apply]
    conv_lhs => rw [ih (cycle s)]
    rfl

theorem reset_instructions_apply (n : Nat) (m : Nat → instruction_t) (i : Nat) :
    reset_instructions n m i = if i < n then reset_instruction (m i) else m i := by
  induction n with
  | zero => simp [reset_instructions]
  | succ n ih =>
    simp only [reset_instructions, store]
    by_cases h : i = n
    · subst h
      rw [if_pos rfl, ih, if_neg (Nat.lt_irrefl _), if_pos (Nat.lt_succ_self _)]
    · rw [if_neg h, ih]
      by_cases h2 : i < n
      · rw [if_pos h2, if_pos (Nat.lt_succ_of_lt h2)]
      · have h3 : ¬ i < n + 1 := by omega
        rw [if_neg h2, if_neg h3]

theorem reset_instruction_idem (instr : instruction_t) :
    reset_instruction (reset_instruction instr) = reset_instruction instr := rfl

theorem int2char_frame (host : byte_order) (v : Nat) (mem : Nat → Nat) (buffer j : Nat)
    (hj : j < buffer ∨ buffer + 4 ≤ j) : int2char host v mem buffer j = mem j := by
  simp only [int2char]
  rw [store_other _ _ _ _ (by omega), store_other _ _ _ _ (by omega),
    store_other _ _ _ _ (by omega), store_other _ _ _ _ (by omega)]

/-! ## Claims -/

/-- C1: for every state whose clock is a 32-bit value and every `cycles`
with `0 < cycles < 2 ^ 32`, `run (cycles)` leaves the main loop after exactly
`cycles` iterations: the loop returns as soon as the fuel pays for
`cycles + 1` evaluations of its condition and not before, the state returned
is the loop body applied `cycles` times, and its `clock_cycles` equals
`(clock_cycles before + cycles) mod 2 ^ 32`. -/
theorem C1_run_exact_cycles (s : sim_pipe) (cycles fuel : Nat)
    (hs : s.clock_cycles < 2 ^ 32) (hpos : 0 < cycles) (hc : cycles < 2 ^ 32) :
    run fuel cycles s = (if cycles < fuel then some (cycle^[cycles] s) else none) ∧
    run (cycles + 1) cycles s = some (cycle^[cycles] s) ∧
    run cycles cycles s = none ∧
    get_clock_cycles (cycle^[cycles] s) = (get_clock_cycles s + cycles) % 2 ^ 32 := by
  have h0 : s.clock_cycles < WORD := hs
  have hc1 : cycles < WORD := hc
  have key : ∀ f, run f cycles s = if cycles < f then some (cycle^[cycles] s) else none := by
    intro f
    have h := run_loop_exact cycles s.clock_cycles hc1 hpos f 0 s (Nat.zero_le _)
      (by simp [Nat.mod_eq_of_lt h0])
    simpa [run] using h
  refine ⟨key fuel, ?_, ?_, ?_⟩
  · rw [key]; simp
  · rw [key]; simp
  · simpa [get_clock_cycles, WORD] using cycle_iterate_clock cycles s h0

/-- Witness for C1: three cycles from a clock that is about to wrap. -/
theorem C1_run_exact_cycles_witness :
    run 4 3 { sim_pipe_init 16 0 with clock_cycles := 4294967295 } =
        some (cycle^[3] { sim_pipe_init 16 0 with clock_cycles := 4294967295 }) ∧
    run 3 3 { sim_pipe_init 16 0 with clock_cycles := 4294967295 } = none ∧
    get_clock_cycles (cycle^[3] { sim_pipe_init 16 0 with clock_cycles := 4294967295 }) = 2 := by
  have h := C1_run_exact_cycles { sim_pipe_init 16 0 with clock_cycles := 4294967295 } 3 4
    (by decide) (by decide) (by decide)
  exact ⟨h.2.1, h.2.2.1, h.2.2.2⟩

/-- C2 (evaluation of the code): the program `EOP` loads into a fresh
simulator, and on the loaded state the loop of `run (0)` is still running
after any number of evaluations of its condition: the run does not stop. -/
theorem C2_run_zero_never_stops :
    ∃ s, load_program eop_program 0 (sim_pipe_init 16 0) = some s ∧
      (s.instr_memory 0).opcode = .EOP ∧
      ∀ fuel, run fuel 0 s = none := by
  refine ⟨{ sim_pipe_init 16 0 with
    instr_base_address := 0,
    instr_memory := store (sim_pipe_init 16 0).instr_memory 0
      (parse_operands (plain_line .EOP 0 0 0) .EOP ((sim_pipe_init 16 0).instr_memory 0)) },
    rfl, rfl, ?_⟩
  intro fuel
  exact run_loop_zero_cycles _ fuel _

/-- C3 (evaluation of the code): the program `ADDI R1 R0 5`, `ADD R2 R1 R1`,
`EOP` loads into a fresh simulator; with `R0` set to 0, `run (0)` on the
loaded state does not stop, and after any number of clock cycles of the main
loop register `R2` reads 0 and both `instructions_executed` and `stalls`
are 0. -/
theorem C3_scenario_registers_untouched :
    ∃ s, load_program addi_add_program 0 (sim_pipe_init 16 0) = some s ∧
      (∀ fuel, run fuel 0 (set_gp_register s 0 0) = none) ∧
      ∀ n, get_gp_register (cycle^[n] (set_gp_register s 0 0)) 2 = 0 ∧
        get_instructions_executed (cycle^[n] (set_gp_register s 0 0)) = 0 ∧
        get_stalls (cycle^[n] (set_gp_register s 0 0)) = 0 := by
  have hload : (load_program addi_add_program 0 (sim_pipe_init 16 0)).isSome = true := rfl
  obtain ⟨s, hs⟩ := Option.isSome_iff_exists.mp hload
  have hstat : s.stalls = 0 ∧ s.instructions_executed = 0 := by
    have h1 : (load_program addi_add_program 0 (sim_pipe_init 16 0)).map
        (fun t => (t.stalls, t.instructions_executed)) = some (0, 0) := rfl
    rw [hs] at h1
    simpa using h1
  refine ⟨s, hs, ?_, ?_⟩
  · intro fuel
    exact run_loop_zero_cycles _ fuel _
  · intro n
    have hf := cycle_iterate_frame n (set_gp_register s 0 0)
    refine ⟨rfl, ?_, ?_⟩
    · rw [get_instructions_executed, hf.2.1]
      exact hstat.2
    · rw [get_stalls, hf.1]
      exact hstat.1

/-- C4: for all 32-bit values `a`, `b` and all values `imm`, `npc` (32-bit
ones in particular), `alu` returns
`(a + b) mod 2 ^ 32` for ADD, `(a + imm) mod 2 ^ 32` for ADDI,
`(a - b) mod 2 ^ 32` for SUB, `(a - imm) mod 2 ^ 32` for SUBI (differences
taken in the integers), the bitwise exclusive-or of `a` and `b` for XOR (a
32-bit value again), the effective address `(a + imm) mod 2 ^ 32` for LW and
SW, and the branch target `(npc + imm) mod 2 ^ 32` for each of the seven
branch and jump opcodes. -/
theorem C4_alu_results (a b imm npc : Nat) (ha : a < 2 ^ 32) (hb : b < 2 ^ 32) :
    alu .ADD a b imm npc = (a + b) % 2 ^ 32 ∧
    alu .ADDI a b imm npc = (a + imm) % 2 ^ 32 ∧
    ((alu .SUB a b imm npc : Nat) : Int) = ((a : Int) - (b : Int)) % 2 ^ 32 ∧
    ((alu .SUBI a b imm npc : Nat) : Int) = ((a : Int) - (imm : Int)) % 2 ^ 32 ∧
    (∀ i, (alu .XOR a b imm npc).testBit i = Bool.xor (a.testBit i) (b.testBit i)) ∧
    alu .XOR a b imm npc < 2 ^ 32 ∧
    alu .LW a b imm npc = (a + imm) % 2 ^ 32 ∧
    alu .SW a b imm npc = (a + imm) % 2 ^ 32 ∧
    ∀ op ∈ [opcode_t.BEQZ, .BNEZ, .BGTZ, .BGEZ, .BLTZ, .BLEZ, .JUMP],
      alu op a b imm npc = (npc + imm) % 2 ^ 32 := by
  refine ⟨rfl, rfl, ?_, ?_, ?_, ?_, rfl, rfl, ?_⟩
  · simp only [alu, sub32, WORD]
    omega
  · simp only [alu, sub32, WORD]
    omega
  · intro i
    simp [alu]
  · exact Nat.xor_lt_two_pow ha hb
  · intro op hop
    simp only [List.mem_cons, List.mem_singleton, List.not_mem_nil, or_false] at hop
    rcases hop with h | h | h | h | h | h | h <;> subst h <;> rfl

/-- Witness for C4: operands at which the subtraction wraps below zero and
the branch target wraps above `2 ^ 32`. -/
theorem C4_alu_results_witness :
    alu .SUB 3 5 4294967288 4 = 4294967294 ∧ alu .BEQZ 3 5 4294967288 4 = 4294967292 ∧
    alu .XOR 3 5 4294967288 4 = 6 := by
  have h := C4_alu_results 3 5 4294967288 4 (by decide) (by decide)
  refine ⟨?_, ?_, by decide⟩
  · have h3 := h.2.2.1
    omega
  · have h9 := h.2.2.2.2.2.2.2.2 .BEQZ (by simp)
    omega

/-- C5: for every 32-bit operand `a`, read as the two's-complement signed
integer `s (a)`: `taken_branch` holds for BEQZ iff `a = 0`, for BNEZ iff
`a != 0`, for BGTZ iff `s (a) > 0`, for BGEZ iff `s (a) >= 0`, for BLTZ iff
`s (a) < 0`, for BLEZ iff `s (a) <= 0`, and always for JUMP. -/
theorem C5_taken_branch_predicates (a : Nat) (ha : a < 2 ^ 32) :
    (taken_branch .BEQZ a = true ↔ a = 0) ∧
    (taken_branch .BNEZ a = true ↔ a ≠ 0) ∧
    (taken_branch .BGTZ a = true ↔ twos_complement a > 0) ∧
    (taken_branch .BGEZ a = true ↔ twos_complement a ≥ 0) ∧
    (taken_branch .BLTZ a = true ↔ twos_complement a < 0) ∧
    (taken_branch .BLEZ a = true ↔ twos_complement a ≤ 0) ∧
    taken_branch .JUMP a = true := by
  have h := to_int_eq_twos_complement a ha
  simp [taken_branch, h]

/-- Witness for C5: the operand `0x80000000`, the most negative value. -/
theorem C5_taken_branch_predicates_witness :
    taken_branch .BLTZ 2147483648 = true ∧ twos_complement 2147483648 < 0 := by
  have h := C5_taken_branch_predicates 2147483648 (by decide)
  exact ⟨by decide, h.2.2.2.2.1.mp (by decide)⟩

/-- C6: for every data memory, every address with
`address + 4 <= data_memory_size` and every 32-bit value `v`: on a
little-endian host `write_memory (address, v)` succeeds and leaves
`(v >> 8k) & 0xFF` in the byte at `address + k` for `k = 0, 1, 2, 3`; on
every host `write_memory` succeeds and `char2int` at `address` then returns
`v` (`char2int` undoes `int2char`). -/
theorem C6_write_memory_round_trip (s : sim_pipe) (address v : Nat)
    (hv : v < 2 ^ 32) (ha : address + 4 ≤ s.data_memory_size) :
    (∃ s1, write_memory .little_endian s address v = some s1 ∧
      ∀ k, k < 4 → s1.data_memory (address + k) = (v >>> (8 * k)) &&& 0xFF) ∧
    (∀ host, ∃ s1, write_memory host s address v = some s1 ∧
      char2int host s1.data_memory address = v) ∧
    ∀ host mem buffer, char2int host (int2char host v mem buffer) buffer = v := by
  have hrt : ∀ host mem buffer, char2int host (int2char host v mem buffer) buffer = v := by
    intro host mem buffer
    obtain ⟨h0, h1, h2, h3⟩ := int2char_bytes host v mem buffer
    rw [char2int, h0, h1, h2, h3]
    exact object_value_bytes host v hv
  refine ⟨?_, ?_, hrt⟩
  · refine ⟨_, if_pos ha, ?_⟩
    intro k hk
    obtain ⟨h0, h1, h2, h3⟩ := int2char_bytes .little_endian v s.data_memory address
    rw [byte_of_shift_mask]
    have hcases : k = 0 ∨ k = 1 ∨ k = 2 ∨ k = 3 := by omega
    rcases hcases with h | h | h | h <;> subst h
    · simpa [object_byte] using h0
    · simpa [object_byte] using h1
    · simpa [object_byte] using h2
    · simpa [object_byte] using h3
  · intro host
    exact ⟨_, if_pos ha, hrt host s.data_memory address⟩

/-- Witness for C6: the word `0x12345678` written at address 4 of a 16-byte
memory. -/
theorem C6_write_memory_round_trip_witness :
    ∃ s1, write_memory .little_endian (sim_pipe_init 16 0) 4 0x12345678 = some s1 ∧
      s1.data_memory 4 = 0x78 ∧ s1.data_memory 5 = 0x56 ∧
      s1.data_memory 6 = 0x34 ∧ s1.data_memory 7 = 0x12 := by
  obtain ⟨s1, h1, h2⟩ :=
    (C6_write_memory_round_trip (sim_pipe_init 16 0) 4 0x12345678 (by decide) (by decide)).1
  refine ⟨s1, h1, ?_, ?_, ?_, ?_⟩
  · simpa using h2 0 (by decide)
  · simpa using h2 1 (by decide)
  · simpa using h2 2 (by decide)
  · simpa using h2 3 (by decide)

/-- C7: for every prior simulator state, after `reset` the memory size is
what it was, every data-memory byte at an index below `data_memory_size` is
`0xFF`, and `clock_cycles`, `stalls` and `instructions_executed` are 0. -/
theorem C7_reset_memory_and_counters (s : sim_pipe) (i : Nat)
    (hi : i < s.data_memory_size) :
    (reset s).data_memory_size = s.data_memory_size ∧
    (reset s).data_memory i = 0xFF ∧
    get_clock_cycles (reset s) = 0 ∧
    get_stalls (reset s) = 0 ∧
    get_instructions_executed (reset s) = 0 := by
  refine ⟨rfl, ?_, rfl, rfl, rfl⟩
  simp [reset, reset_data_memory_apply, hi]

/-- Witness for C7: reset of a state whose clock shows seven cycles and whose
data memory holds zeros. -/
theorem C7_reset_memory_and_counters_witness :
    (reset { sim_pipe_init 16 0 with clock_cycles := 7, data_memory := fun _ => 0 }).data_memory 11
      = 0xFF ∧
    get_clock_cycles
      (reset { sim_pipe_init 16 0 with clock_cycles := 7, data_memory := fun _ => 0 }) = 0 := by
  have h := C7_reset_memory_and_counters
    { sim_pipe_init 16 0 with clock_cycles := 7, data_memory := fun _ => 0 } 11 (by decide)
  exact ⟨h.2.1, h.2.2.1⟩

/-- C8 (evaluation of the code): after `reset` of any state,
`get_gp_register` returns 0 for every register index, which is not the
sentinel `(int) 0xFFFFFFFF = -1`. -/
theorem C8_reset_register_reads_zero (s : sim_pipe) (r : Nat) :
    get_gp_register (reset s) r = 0 ∧ to_int UNDEFINED = -1 ∧
    get_gp_register (reset s) r ≠ to_int UNDEFINED := by
  have hu : to_int UNDEFINED = -1 := by decide
  refine ⟨rfl, hu, ?_⟩
  rw [hu]
  simp [get_gp_register]

/-- C9 (evaluation of the code): after `set_gp_register (1, 5)` on any
state, `get_gp_register (1)` returns 0, not 5. -/
theorem C9_set_then_get_reads_zero (s : sim_pipe) :
    get_gp_register (set_gp_register s 1 5) 1 = 0 ∧
    get_gp_register (set_gp_register s 1 5) 1 ≠ 5 := by
  refine ⟨rfl, ?_⟩
  simp [get_gp_register]

/-- C10 (evaluation of the code): in every state `get_sp_register (LMD, ID)`
returns 0, not the sentinel `UNDEFINED = 0xFFFFFFFF`; the same holds for
every register and stage. -/
theorem C10_sp_register_reads_zero (s : sim_pipe) (reg : sp_register_t) (stage : stage_t) :
    get_sp_register s .LMD .ID = 0 ∧ get_sp_register s .LMD .ID ≠ UNDEFINED ∧
    get_sp_register s reg stage ≠ UNDEFINED := by
  refine ⟨rfl, ?_, ?_⟩ <;> simp [get_sp_register, UNDEFINED]

/-- C11: for every program that `load_program` loads, every branch or jump
at a line index `i` with no `EOP` line before it, and every line index `L`
that carries the label the branch names (`L` being the last such line when
the label is written on several), the immediate stored for the instruction
is `((L - i - 1) << 2) mod 2 ^ 32`, whether `L > i` or `L <= i`. -/
theorem C11_branch_immediate_from_label (lines : List asm_line) (base : Nat)
    (s s1 : sim_pipe) (hload : load_program lines base s = some s1)
    (i L : Nat) (line_i line_L : asm_line) (op : opcode_t)
    (hi : lines[i]? = some line_i) (hop : line_i.opcode = some op)
    (hbr : is_branch op = true)
    (hbefore : ∀ (j : Nat) (lj : asm_line), j < i → lines[j]? = some lj →
      lj.opcode ≠ some .EOP)
    (hL : lines[L]? = some line_L) (hdef : line_L.label = some line_i.target)
    (hlast : ∀ (j : Nat) (lj : asm_line), L < j → lines[j]? = some lj →
      lj.label ≠ some line_i.target) :
    (s1.instr_memory i).immediate = shl32 (sub32 (sub32 L i) 1) 2 ∧
    (((s1.instr_memory i).immediate : Nat) : Int)
      = (((L : Int) - (i : Int) - 1) * 4) % 2 ^ 32 := by
  rw [is_branch_eq_has_label] at hbr
  obtain ⟨labels, im, hp, himm⟩ :=
    load_program_branch_immediate lines base s s1 hload i line_i op hi hop hbr hbefore
  have hlook := parse_lines_lookup_defined line_i.target lines 0 [] s.instr_memory
    (labels, im) hp L line_L hL hdef hlast
  have hlook1 : labels_lookup labels line_i.target = L := by simpa using hlook
  rw [hlook1] at himm
  refine ⟨himm, ?_⟩
  rw [himm]
  exact label_immediate_int L i

/-- Witness for C11: the backward branch of `loop_program`, at line 1 to the
label on line 0, gets the immediate `-8 mod 2 ^ 32`. -/
theorem C11_branch_immediate_from_label_witness :
    ∃ s1, load_program loop_program 0 (sim_pipe_init 16 0) = some s1 ∧
      (s1.instr_memory 1).immediate = 4294967288 := by
  have hload : (load_program loop_program 0 (sim_pipe_init 16 0)).isSome = true := rfl
  obtain ⟨s1, hs1⟩ := Option.isSome_iff_exists.mp hload
  have h := C11_branch_immediate_from_label loop_program 0 (sim_pipe_init 16 0) s1 hs1 1 0
    { label := none, opcode := some .BNEZ, par1 := 1, par2 := 0, par3 := 0, target := "loop" }
    { label := some "loop", opcode := some .ADDI, par1 := 1, par2 := 1, par3 := 1,
      target := "" }
    .BNEZ rfl rfl rfl
    (by
      intro j lj hj hget
      have hj0 : j = 0 := by omega
      subst hj0
      simp only [loop_program, List.getElem?_cons_zero, Option.some.injEq] at hget
      subst hget
      decide)
    rfl rfl
    (by
      intro j lj hj hget
      have hcases : j = 1 ∨ j = 2 ∨ 3 ≤ j := by omega
      rcases hcases with h1 | h1 | h1
      · subst h1
        simp only [loop_program, List.getElem?_cons_succ, List.getElem?_cons_zero,
          Option.some.injEq] at hget
        subst hget
        decide
      · subst h1
        simp only [loop_program, List.getElem?_cons_succ, List.getElem?_cons_zero,
          Option.some.injEq] at hget
        subst hget
        decide
      · rw [List.getElem?_eq_none (by simp [loop_program]; omega)] at hget
        exact absurd hget (by simp))
  exact ⟨s1, hs1, h.1⟩

/-- C12 (counterexample): `jump_nowhere_program`, whose jump at line 1 names
a label that no line defines, loads without failure and the jump gets the
resolved immediate `(0 - 1 - 1) << 2 = -8 mod 2 ^ 32`. -/
theorem C12_undefined_label_load_succeeds :
    (load_program jump_nowhere_program 0 (sim_pipe_init 16 0)).isSome = true ∧
    (load_program jump_nowhere_program 0 (sim_pipe_init 16 0)).map
      (fun s1 => (s1.instr_memory 1).immediate) = some 4294967288 := by
  exact ⟨rfl, rfl⟩

/-- C12 (amended): for every program of at most 50 lines with valid opcodes
and an `EOP` line, in which a branch or jump at a line index `i` with no
`EOP` before it names a label that no line defines, `load_program` does not
fail: it loads the program and resolves the missing label to line index 0,
storing the immediate `((0 - i - 1) << 2) mod 2 ^ 32` for that instruction. -/
theorem C12_undefined_label_resolves_to_zero (lines : List asm_line) (base : Nat)
    (s : sim_pipe) (hlen : lines.length ≤ PROGRAM_SIZE)
    (hvalid : ∀ line ∈ lines, line.opcode ≠ none)
    (hE : ∃ line ∈ lines, line.opcode = some .EOP)
    (i : Nat) (line_i : asm_line) (op : opcode_t)
    (hi : lines[i]? = some line_i) (hop : line_i.opcode = some op)
    (hbr : is_branch op = true)
    (hbefore : ∀ (j : Nat) (lj : asm_line), j < i → lines[j]? = some lj →
      lj.opcode ≠ some .EOP)
    (hundef : ∀ line ∈ lines, line.label ≠ some line_i.target) :
    ∃ s1, load_program lines base s = some s1 ∧
      (s1.instr_memory i).immediate = shl32 (sub32 (sub32 0 i) 1) 2 ∧
      (((s1.instr_memory i).immediate : Nat) : Int) = ((0 - (i : Int) - 1) * 4) % 2 ^ 32 := by
  rw [is_branch_eq_has_label] at hbr
  obtain ⟨e, line_e, he, heop, hfirst⟩ := exists_first_eop lines hE
  obtain ⟨labels, im, im1, hp, _, _, _, _, hload⟩ :=
    load_program_ok lines base s hlen hvalid e line_e he heop hfirst
  obtain ⟨labels1, im2, hp1, himm⟩ :=
    load_program_branch_immediate lines base s _ hload i line_i op hi hop hbr hbefore
  have hlook := parse_lines_lookup_undefined line_i.target lines 0 [] s.instr_memory
    (labels1, im2) hp1 hundef
  have hlook1 : labels_lookup labels1 line_i.target = 0 := by simpa [labels_lookup] using hlook
  rw [hlook1] at himm
  refine ⟨_, hload, himm, ?_⟩
  rw [himm]
  have h := label_immediate_int 0 i
  simpa using h

/-- Witness for C12: `jump_nowhere_program`, with the jump at line 1. -/
theorem C12_undefined_label_resolves_to_zero_witness :
    ∃ s1, load_program jump_nowhere_program 0 (sim_pipe_init 16 0) = some s1 ∧
      (s1.instr_memory 1).immediate = 4294967288 := by
  obtain ⟨s1, h1, h2, _⟩ := C12_undefined_label_resolves_to_zero jump_nowhere_program 0
    (sim_pipe_init 16 0) (by decide) (by decide)
    ⟨plain_line .EOP 0 0 0, by simp [jump_nowhere_program], rfl⟩ 1
    { label := none, opcode := some .JUMP, par1 := 0, par2 := 0, par3 := 0,
      target := "nowhere" }
    .JUMP rfl rfl rfl
    (by
      intro j lj hj hget
      have hj0 : j = 0 := by omega
      subst hj0
      simp only [jump_nowhere_program, List.getElem?_cons_zero, Option.some.injEq] at hget
      subst hget
      decide)
    (by decide)
  exact ⟨s1, h1, h2⟩

/-- C13 (evaluation of the code): the program `ADD R1 R2 R3`, `EOP` (one
arithmetic instruction, no dependency) loads into a fresh simulator;
`run (0)` on the loaded state does not stop, and after any number `n` of
clock cycles of the main loop `stalls` is 0, `instructions_executed` is
still 0 and `clock_cycles` is `n mod 2 ^ 32`. -/
theorem C13_independent_program_never_completes :
    ∃ s, load_program add_program 0 (sim_pipe_init 16 0) = some s ∧
      (∀ fuel, run fuel 0 s = none) ∧
      ∀ n, get_stalls (cycle^[n] s) = 0 ∧
        get_instructions_executed (cycle^[n] s) = 0 ∧
        get_clock_cycles (cycle^[n] s) = n % 2 ^ 32 := by
  have hload : (load_program add_program 0 (sim_pipe_init 16 0)).isSome = true := rfl
  obtain ⟨s, hs⟩ := Option.isSome_iff_exists.mp hload
  obtain ⟨hc, hst, hie⟩ := load_program_counters _ _ _ _ hs
  have hc0 : s.clock_cycles = 0 := hc
  have hst0 : s.stalls = 0 := hst
  have hie0 : s.instructions_executed = 0 := hie
  refine ⟨s, hs, fun fuel => run_loop_zero_cycles _ fuel _, ?_⟩
  intro n
  have hf := cycle_iterate_frame n s
  have hclk := cycle_iterate_clock n s (by rw [hc0]; decide)
  refine ⟨?_, ?_, ?_⟩
  · rw [get_stalls, hf.1, hst0]
  · rw [get_instructions_executed, hf.2.1, hie0]
  · rw [get_clock_cycles, hclk, hc0, Nat.zero_add]
    rfl

/-- C14: for every state and every `cycles > 0` with
`clock_cycles + cycles < 2 ^ 32`, `run (cycles)` returns (with any fuel
above `cycles`) and leaves each of `clock_cycles`, `stalls` and
`instructions_executed` greater than or equal to its previous value; and
`write_memory`, `set_gp_register` and `load_program`, whenever they return,
leave all three counters unchanged. -/
theorem C14_counters_monotone (s : sim_pipe) (cycles : Nat) (hpos : 0 < cycles)
    (hb : s.clock_cycles + cycles < 2 ^ 32) :
    (∀ fuel, cycles < fuel → ∃ s1, run fuel cycles s = some s1 ∧
      get_clock_cycles s ≤ get_clock_cycles s1 ∧ get_stalls s ≤ get_stalls s1 ∧
      get_instructions_executed s ≤ get_instructions_executed s1) ∧
    (∀ host address value s1, write_memory host s address value = some s1 →
      get_clock_cycles s1 = get_clock_cycles s ∧ get_stalls s1 = get_stalls s ∧
      get_instructions_executed s1 = get_instructions_executed s) ∧
    (∀ reg value,
      get_clock_cycles (set_gp_register s reg value) = get_clock_cycles s ∧
      get_stalls (set_gp_register s reg value) = get_stalls s ∧
      get_instructions_executed (set_gp_register s reg value)
        = get_instructions_executed s) ∧
    (∀ lines base s1, load_program lines base s = some s1 →
      get_clock_cycles s1 = get_clock_cycles s ∧ get_stalls s1 = get_stalls s ∧
      get_instructions_executed s1 = get_instructions_executed s) := by
  have hcw : cycles < WORD := by
    simp only [WORD]
    omega
  have hsw : s.clock_cycles < WORD := by
    simp only [WORD]
    omega
  refine ⟨?_, ?_, ?_, ?_⟩
  · intro fuel hfuel
    have hrun := run_loop_exact cycles s.clock_cycles hcw hpos fuel 0 s (Nat.zero_le _)
      (by simp [Nat.mod_eq_of_lt hsw])
    rw [Nat.sub_zero, if_pos hfuel] at hrun
    refine ⟨_, hrun, ?_, ?_, ?_⟩
    · rw [get_clock_cycles, get_clock_cycles, cycle_iterate_clock cycles s hsw]
      simp only [WORD]
      omega
    · rw [get_stalls, get_stalls, (cycle_iterate_frame cycles s).1]
    · rw [get_instructions_executed, get_instructions_executed,
        (cycle_iterate_frame cycles s).2.1]
  · intro host address value s1 h
    unfold write_memory at h
    split at h
    · rw [← Option.some.inj h]
      exact ⟨rfl, rfl, rfl⟩
    · exact absurd h (by simp)
  · intro reg value
    exact ⟨rfl, rfl, rfl⟩
  · intro lines base s1 h
    exact load_program_counters lines base s s1 h

/-- Witness for C14: five cycles from a state whose clock shows 7. -/
theorem C14_counters_monotone_witness :
    ∃ s1, run 6 5 { sim_pipe_init 16 0 with clock_cycles := 7 } = some s1 ∧
      7 ≤ get_clock_cycles s1 ∧ 0 ≤ get_stalls s1 := by
  obtain ⟨s1, h1, h2, h3, _⟩ :=
    (C14_counters_monotone { sim_pipe_init 16 0 with clock_cycles := 7 } 5
      (by decide) (by decide)).1 6 (by decide)
  exact ⟨s1, h1, h2, h3⟩

/-- C15 (counterexample): directly after `reset`, `get_IPC` (here with exact
rounding) performs the division `0 / 0`: the divisor is zero and nothing
guards the division. -/
theorem C15_ipc_divides_by_zero_after_reset :
    get_IPC (fun q => q) (sim_pipe_init 16 0) = float_quotient.zero_divide 0 := by
  simp [get_IPC, float_div, sim_pipe_init, reset]

/-- C15 (amended): for every rounding `fl` to `float` that keeps 0 and sends
no positive counter value to 0, `get_IPC` returns the `float` quotient of
`instructions_executed` by `clock_cycles` whenever `clock_cycles > 0`; when
`clock_cycles == 0` (directly after `reset`, for one) the division is not
guarded: it is performed with divisor zero. -/
theorem C15_ipc_quotient_unguarded (fl : ℚ → ℚ) (s : sim_pipe)
    (hzero : fl 0 = 0) (hpos : ∀ n : Nat, 0 < n → fl (n : ℚ) ≠ 0) :
    (0 < s.clock_cycles → get_IPC fl s = float_quotient.value
      (fl (fl (s.instructions_executed : ℚ) / fl (s.clock_cycles : ℚ)))) ∧
    (s.clock_cycles = 0 → get_IPC fl s
      = float_quotient.zero_divide (fl (s.instructions_executed : ℚ))) ∧
    get_IPC fl (reset s) = float_quotient.zero_divide 0 := by
  refine ⟨?_, ?_, ?_⟩
  · intro h
    simp only [get_IPC, float_div, if_neg (hpos _ h)]
  · intro h
    simp only [get_IPC, float_div, h, Nat.cast_zero, hzero, if_true]
  · simp only [get_IPC, float_div, reset, Nat.cast_zero, hzero, if_true]

/-- Witness for C15: exact rounding, on a state with 3 instructions executed
in 12 cycles. -/
theorem C15_ipc_quotient_unguarded_witness :
    get_IPC (fun q => q)
      { sim_pipe_init 16 0 with instructions_executed := 3, clock_cycles := 12 }
      = float_quotient.value (3 / 12) := by
  have h := (C15_ipc_quotient_unguarded (fun q => q)
    { sim_pipe_init 16 0 with instructions_executed := 3, clock_cycles := 12 } rfl
    (by
      intro n hn
      exact Nat.cast_ne_zero.mpr (by omega))).1 (by decide)
  simpa using h

/-- C16: after every sequence of `init_exec_unit` calls on the empty pool the
number of registered units is at most `MAX_UNITS = 10`, and a further call
that would bring the number above `MAX_UNITS` is rejected and returns the
pool (`exec_units`, `num_units`) as it was. -/
theorem C16_init_exec_unit_rejects_excess (calls : List (exe_unit_t × Nat × Nat))
    (exec_unit : exe_unit_t) (latency instances : Nat)
    (hover : MAX_UNITS < (init_exec_units calls empty_pool).num_units + instances) :
    (init_exec_units calls empty_pool).num_units ≤ MAX_UNITS ∧
    init_exec_unit (init_exec_units calls empty_pool) exec_unit latency instances
      = (false, init_exec_units calls empty_pool) ∧
    init_exec_units (calls ++ [(exec_unit, latency, instances)]) empty_pool
      = init_exec_units calls empty_pool := by
  have hcap := init_exec_units_capacity calls empty_pool (by decide)
  have hrej : init_exec_unit (init_exec_units calls empty_pool) exec_unit latency instances
      = (false, init_exec_units calls empty_pool) := by
    unfold init_exec_unit
    rw [if_neg (by omega)]
  refine ⟨hcap, hrej, ?_⟩
  have happ : ∀ (cs : List (exe_unit_t × Nat × Nat)) (p : unit_pool),
      init_exec_units (cs ++ [(exec_unit, latency, instances)]) p
        = (init_exec_unit (init_exec_units cs p) exec_unit latency instances).2 := by
    intro cs
    induction cs with
    | nil => intro p; rfl
    | cons c cs ih =>
      intro p
      obtain ⟨t, l, n⟩ := c
      exact ih _
  rw [happ, hrej]

/-- Witness for C16: six adders and three multipliers are registered, then a
request for two dividers (eleven units in all) is rejected. -/
theorem C16_init_exec_unit_rejects_excess_witness :
    (init_exec_units [(.ADDER, 2, 6), (.MULTIPLIER, 4, 3)] empty_pool).num_units = 9 ∧
    (init_exec_unit (init_exec_units [(.ADDER, 2, 6), (.MULTIPLIER, 4, 3)] empty_pool)
      .DIVIDER 8 2).1 = false := by
  have h := C16_init_exec_unit_rejects_excess [(.ADDER, 2, 6), (.MULTIPLIER, 4, 3)]
    .DIVIDER 8 2 (by decide)
  refine ⟨by decide, ?_⟩
  rw [h.2.1]

/-- C17 (counterexample): for `EOP` with all operands 0 the specification
asks for a fatal error, and `alu` returns the value `0xFFFFFFFF` in the
ordinary way. -/
theorem C17_alu_returns_for_eop :
    alu_spec .EOP 0 0 0 0 = none ∧ alu .EOP 0 0 0 0 = 4294967295 ∧
    some (alu .EOP 0 0 0 0) ≠ alu_spec .EOP 0 0 0 0 := by
  decide

/-- C17 (amended): for the two opcodes that have no ALU function (`EOP` and
`NOP`) and all operand values, `alu` returns the value `0xFFFFFFFF`, which is
`(unsigned) -1` and equals `UNDEFINED`; it signals no error.  On every other
opcode `alu` agrees with the ALU of the specification. -/
theorem C17_alu_default_value (a b imm npc : Nat) :
    alu .EOP a b imm npc = 0xFFFFFFFF ∧ alu .NOP a b imm npc = 0xFFFFFFFF ∧
    alu .EOP a b imm npc = UNDEFINED ∧ alu .NOP a b imm npc = UNDEFINED ∧
    ∀ op, op ≠ .EOP → op ≠ .NOP → alu_spec op a b imm npc = some (alu op a b imm npc) := by
  have hd : to_unsigned (-1) = 4294967295 := by decide
  refine ⟨hd, hd, hd, hd, ?_⟩
  intro op h1 h2
  have hsub : ∀ x y : Nat, (((x : Int) - (y : Int)) % 2 ^ 32).toNat = sub32 x y := by
    intro x y
    simp only [sub32, WORD]
    omega
  cases op <;> first
    | exact absurd rfl h1
    | exact absurd rfl h2
    | rfl
    | (simp only [alu_spec, alu, hsub])

/-- Witness for C17: the opcode `SUB` with operands 3 and 5. -/
theorem C17_alu_default_value_witness :
    alu_spec .SUB 3 5 0 0 = some (alu .SUB 3 5 0 0) := by
  exact (C17_alu_default_value 3 5 0 0).2.2.2.2 .SUB (by decide) (by decide)

/-- C18: for every 32-bit base address, every branch or jump opcode, every
instruction index `i` (below `PROGRAM_SIZE = 50` in particular) and every
label index `L` below `PROGRAM_SIZE`, `alu`
applied with `npc = (base + 4 (i + 1)) mod 2 ^ 32` and the immediate
`((L - i - 1) << 2) mod 2 ^ 32` that the label loop stores returns
`(base + 4 L) mod 2 ^ 32`, and `(target - base) >> 2` is `L`; this holds for
`L <= i` as well, where the immediate wraps around. -/
theorem C18_branch_target_agrees (base i L a b : Nat) (op : opcode_t)
    (hbase : base < 2 ^ 32) (hL : L < PROGRAM_SIZE) (hop : is_branch op = true) :
    ((shl32 (sub32 (sub32 L i) 1) 2 : Nat) : Int)
      = (((L : Int) - (i : Int) - 1) * 4) % 2 ^ 32 ∧
    alu op a b (shl32 (sub32 (sub32 L i) 1) 2) ((base + 4 * (i + 1)) % 2 ^ 32)
      = (base + 4 * L) % 2 ^ 32 ∧
    (sub32 (alu op a b (shl32 (sub32 (sub32 L i) 1) 2) ((base + 4 * (i + 1)) % 2 ^ 32)) base)
      >>> 2 = L := by
  have himm := label_immediate_int L i
  have htarget : alu op a b (shl32 (sub32 (sub32 L i) 1) 2) ((base + 4 * (i + 1)) % 2 ^ 32)
      = (base + 4 * L) % 2 ^ 32 := by
    have halu : alu op a b (shl32 (sub32 (sub32 L i) 1) 2) ((base + 4 * (i + 1)) % 2 ^ 32)
        = add32 ((base + 4 * (i + 1)) % 2 ^ 32) (shl32 (sub32 (sub32 L i) 1) 2) := by
      cases op <;> first | exact absurd hop (by decide) | simp only [alu]
    rw [halu]
    simp only [add32, shl32, sub32, WORD, Nat.shiftLeft_eq, PROGRAM_SIZE] at *
    omega
  refine ⟨himm, htarget, ?_⟩
  rw [htarget, Nat.shiftRight_eq_div_pow]
  simp only [sub32, WORD, PROGRAM_SIZE] at *
  omega

/-- Witness for C18: the backward branch of `loop_program` (index 1, label on
line 0) loaded at base address `0xFFFFFFFC`, where the next PC wraps. -/
theorem C18_branch_target_agrees_witness :
    alu .BNEZ 0 0 4294967288 4 = 4294967292 ∧ (sub32 4294967292 4294967292) >>> 2 = 0 := by
  have h := C18_branch_target_agrees 4294967292 1 0 0 0 .BNEZ (by decide) (by decide)
    (by decide)
  exact ⟨h.2.1, h.2.2⟩

/-- C19: for every program of at most 50 lines with valid opcodes that
contains an `EOP` line, with `e` the index of its first `EOP` line: the
parsing loop succeeds, `e < 50`, and the label loop of `load_program`
returns.  It returns already when given room for the `e + 1` slots
`0 .. e`, so those are the only slots of `instr_memory` it reads, all in
`[0, 50)`; and it leaves every instruction at an index `j >= e` as it was,
its immediate included. -/
theorem C19_label_loop_bounded (lines : List asm_line) (base : Nat) (s : sim_pipe)
    (hlen : lines.length ≤ PROGRAM_SIZE)
    (hvalid : ∀ line ∈ lines, line.opcode ≠ none)
    (hE : ∃ line ∈ lines, line.opcode = some .EOP) :
    ∃ (e : Nat) (line_e : asm_line) (labels : List (String × Nat))
      (im im1 : Nat → instruction_t),
      lines[e]? = some line_e ∧ line_e.opcode = some .EOP ∧
      (∀ (j : Nat) (lj : asm_line), j < e → lines[j]? = some lj → lj.opcode ≠ some .EOP) ∧
      e < PROGRAM_SIZE ∧
      parse_lines lines 0 [] s.instr_memory = some (labels, im) ∧
      resolve_labels labels (e + 1) 0 im = some im1 ∧
      resolve_labels labels PROGRAM_SIZE 0 im = some im1 ∧
      (∀ j, e ≤ j → im1 j = im j ∧ (im1 j).immediate = (im j).immediate) ∧
      load_program lines base s =
        some { s with instr_base_address := base, instr_memory := im1 } := by
  obtain ⟨e, line_e, he, heop, hfirst⟩ := exists_first_eop lines hE
  obtain ⟨labels, im, im1, hp, hlt, hr1, hr2, hframe, hload⟩ :=
    load_program_ok lines base s hlen hvalid e line_e he heop hfirst
  refine ⟨e, line_e, labels, im, im1, he, heop, hfirst, hlt, hp, hr1, hr2, ?_, hload⟩
  intro j hj
  have h := hframe j hj
  exact ⟨h, by rw [h]⟩

/-- Witness for C19: `loop_program`, whose first `EOP` is on line 2; the
label loop returns with room for three slots. -/
theorem C19_label_loop_bounded_witness :
    ∃ (e : Nat) (labels : List (String × Nat)) (im im1 : Nat → instruction_t),
      loop_program[e]? = some (plain_line .EOP 0 0 0) ∧
      parse_lines loop_program 0 [] (sim_pipe_init 16 0).instr_memory = some (labels, im) ∧
      resolve_labels labels (e + 1) 0 im = some im1 ∧
      (im1 e).immediate = (im e).immediate := by
  obtain ⟨e, line_e, labels, im, im1, h1, h2, h3, _, h5, h6, _, h8, _⟩ :=
    C19_label_loop_bounded loop_program 0 (sim_pipe_init 16 0) (by decide) (by decide)
      ⟨plain_line .EOP 0 0 0, by simp [loop_program], rfl⟩
  have hline : line_e = plain_line .EOP 0 0 0 := by
    have he : e = 0 ∨ e = 1 ∨ e = 2 ∨ 3 ≤ e := by omega
    rcases he with h | h | h | h
    · subst h
      simp only [loop_program, List.getElem?_cons_zero, Option.some.injEq] at h1
      subst h1
      exact absurd h2 (by decide)
    · subst h
      simp only [loop_program, List.getElem?_cons_succ, List.getElem?_cons_zero,
        Option.some.injEq] at h1
      subst h1
      exact absurd h2 (by decide)
    · subst h
      simp only [loop_program, List.getElem?_cons_succ, List.getElem?_cons_zero,
        Option.some.injEq] at h1
      exact h1.symm
    · rw [List.getElem?_eq_none (by simp [loop_program]; omega)] at h1
      exact absurd h1 (by simp)
  subst hline
  exact ⟨e, labels, im, im1, h1, h5, h6, (h8 e le_rfl).2⟩

/-- C20: for every opcode of the enumeration at most one of `is_branch`,
`is_memory`, `is_int_r`, `is_int_imm` is true, and none of them is true
exactly when the opcode is `EOP` or `NOP`. -/
theorem C20_opcode_classes_partition (op : opcode_t) :
    (is_branch op).toNat + (is_memory op).toNat + (is_int_r op).toNat
      + (is_int_imm op).toNat ≤ 1 ∧
    ((is_branch op = false ∧ is_memory op = false ∧ is_int_r op = false ∧
      is_int_imm op = false) ↔ (op = .EOP ∨ op = .NOP)) ∧
    op ∈ [opcode_t.LW, .SW, .ADD, .ADDI, .SUB, .SUBI, .XOR, .BEQZ, .BNEZ, .BLTZ, .BGTZ,
      .BLEZ, .BGEZ, .JUMP, .EOP, .NOP] := by
  cases op <;> decide

/-- C21: only branches can be taken: for every opcode and every operand,
`taken_branch` true implies `is_branch` true; so every opcode that is not a
branch (the loads and stores, the arithmetic opcodes, `EOP` and `NOP`) is
reported not taken for every operand. -/
theorem C21_only_branches_taken (op : opcode_t) (a : Nat) :
    (taken_branch op a = true → is_branch op = true) ∧
    (is_branch op = false → taken_branch op a = false) ∧
    (op ∈ [opcode_t.LW, .SW, .ADD, .ADDI, .SUB, .SUBI, .XOR, .EOP, .NOP] →
      taken_branch op a = false) := by
  cases op <;> simp [taken_branch, is_branch]

/-- Witness for C21: `SW` with operand 0 and `NOP` with a negative operand
are not taken. -/
theorem C21_only_branches_taken_witness :
    taken_branch .SW 0 = false ∧ taken_branch .NOP 4294967295 = false := by
  exact ⟨(C21_only_branches_taken .SW 0).2.1 (by decide),
    (C21_only_branches_taken .NOP 4294967295).2.2 (by decide)⟩

/-- C22: on every 32-bit operand `a` exactly one of `taken_branch (BEQZ, a)`
and `taken_branch (BNEZ, a)` holds, exactly one of `taken_branch (BGTZ, a)`
and `taken_branch (BLEZ, a)` holds, exactly one of `taken_branch (BGEZ, a)`
and `taken_branch (BLTZ, a)` holds, and `taken_branch (BGEZ, a)` holds iff
`taken_branch (BGTZ, a)` or `taken_branch (BEQZ, a)` holds. -/
theorem C22_branch_predicates_complementary (a : Nat) (ha : a < 2 ^ 32) :
    ((taken_branch .BEQZ a = true ∨ taken_branch .BNEZ a = true) ∧
      ¬ (taken_branch .BEQZ a = true ∧ taken_branch .BNEZ a = true)) ∧
    ((taken_branch .BGTZ a = true ∨ taken_branch .BLEZ a = true) ∧
      ¬ (taken_branch .BGTZ a = true ∧ taken_branch .BLEZ a = true)) ∧
    ((taken_branch .BGEZ a = true ∨ taken_branch .BLTZ a = true) ∧
      ¬ (taken_branch .BGEZ a = true ∧ taken_branch .BLTZ a = true)) ∧
    (taken_branch .BGEZ a = true ↔
      (taken_branch .BGTZ a = true ∨ taken_branch .BEQZ a = true)) := by
  have hcast : to_int a = (if a < 2 ^ 31 then (a : Int) else (a : Int) - 2 ^ 32) := rfl
  by_cases h31 : a < 2 ^ 31
  · have hv : to_int a = (a : Int) := by rw [hcast, if_pos h31]
    simp only [taken_branch, hv]
    by_cases h0 : a = 0
    · subst h0
      simp
    · have hp : (0 : Int) < (a : Int) := by omega
      have hnp : ¬ ((a : Int) ≤ 0) := by omega
      have hnn : ¬ ((a : Int) < 0) := by omega
      have hge : (a : Int) ≥ 0 := by omega
      simp [h0, hp, hnp, hnn, hge]
  · have hv : to_int a = (a : Int) - 2 ^ 32 := by rw [hcast, if_neg h31]
    have h0 : a ≠ 0 := by omega
    have hneg : (a : Int) - 2 ^ 32 < 0 := by omega
    have hle : (a : Int) - 2 ^ 32 ≤ 0 := by omega
    have hnp : ¬ ((a : Int) - 2 ^ 32 > 0) := by omega
    have hnge : ¬ ((a : Int) - 2 ^ 32 ≥ 0) := by omega
    simp only [taken_branch, hv]
    simp [h0, hneg, hle, hnp, hnge]
    omega

/-- Witness for C22: the operands 0 and `0x80000000`. -/
theorem C22_branch_predicates_complementary_witness :
    (taken_branch .BGEZ 0 = true ↔ (taken_branch .BGTZ 0 = true ∨ taken_branch .BEQZ 0 = true)) ∧
    ¬ (taken_branch .BGEZ 2147483648 = true ∧ taken_branch .BLTZ 2147483648 = true) := by
  exact ⟨(C22_branch_predicates_complementary 0 (by decide)).2.2.2,
    (C22_branch_predicates_complementary 2147483648 (by decide)).2.2.1.2⟩

/-- C23: for every state whose clock is a 32-bit value and every `cycles`
with `0 < cycles < 2 ^ 32`, `run (cycles)` returns (with any fuel above
`cycles`) a state in which the data memory, the instruction memory,
`instr_base_address`, the IR latches, `stalls` and `instructions_executed`
(and the memory size and latency) are what they were; the state returned is
the old one with `clock_cycles` replaced, and `clock_cycles` does differ. -/
theorem C23_run_changes_only_clock (s : sim_pipe) (cycles fuel : Nat)
    (hs : s.clock_cycles < 2 ^ 32) (hpos : 0 < cycles) (hc : cycles < 2 ^ 32)
    (hfuel : cycles < fuel) :
    ∃ s1, run fuel cycles s = some s1 ∧
      s1.data_memory = s.data_memory ∧ s1.instr_memory = s.instr_memory ∧
      s1.instr_base_address = s.instr_base_address ∧ s1.ir = s.ir ∧
      s1.stalls = s.stalls ∧ s1.instructions_executed = s.instructions_executed ∧
      s1.data_memory_size = s.data_memory_size ∧
      s1.data_memory_latency = s.data_memory_latency ∧
      s1 = { s with clock_cycles := (s.clock_cycles + cycles) % 2 ^ 32 } ∧
      s1.clock_cycles ≠ s.clock_cycles := by
  have hsw : s.clock_cycles < WORD := hs
  have hrun := run_loop_exact cycles s.clock_cycles hc hpos fuel 0 s (Nat.zero_le _)
    (by simp [Nat.mod_eq_of_lt hsw])
  rw [Nat.sub_zero, if_pos hfuel] at hrun
  have hclk := cycle_iterate_clock cycles s hsw
  have heq := cycle_iterate_eq cycles s
  rw [hclk] at heq
  refine ⟨_, hrun, ?_⟩
  rw [heq]
  refine ⟨rfl, rfl, rfl, rfl, rfl, rfl, rfl, rfl, rfl, ?_⟩
  simp only [WORD]
  omega

/-- Witness for C23: three cycles from a clock that is about to wrap. -/
theorem C23_run_changes_only_clock_witness :
    ∃ s1, run 4 3 { sim_pipe_init 16 0 with clock_cycles := 4294967295 } = some s1 ∧
      s1.stalls = 0 ∧ s1.instructions_executed = 0 ∧ s1.clock_cycles ≠ 4294967295 := by
  obtain ⟨s1, h1, _, _, _, _, h6, h7, _, _, _, h11⟩ :=
    C23_run_changes_only_clock { sim_pipe_init 16 0 with clock_cycles := 4294967295 } 3 4
      (by decide) (by decide) (by decide) (by decide)
  exact ⟨s1, h1, h6, h7, h11⟩

/-- C24: for every prior state, after `reset` every instruction-memory slot
below `PROGRAM_SIZE = 50` and every IR latch below `NUM_STAGES - 1 = 4` has
opcode `NOP` and `src1 = src2 = dest = immediate = 0xFFFFFFFF`, and
`instr_base_address` is `0xFFFFFFFF`; a second `reset` changes nothing. -/
theorem C24_reset_erases_program (s : sim_pipe) (i k : Nat)
    (hi : i < PROGRAM_SIZE) (hk : k < NUM_STAGES - 1) :
    (((reset s).instr_memory i).opcode = .NOP ∧
      ((reset s).instr_memory i).src1 = 0xFFFFFFFF ∧
      ((reset s).instr_memory i).src2 = 0xFFFFFFFF ∧
      ((reset s).instr_memory i).dest = 0xFFFFFFFF ∧
      ((reset s).instr_memory i).immediate = 0xFFFFFFFF) ∧
    (((reset s).ir k).opcode = .NOP ∧
      ((reset s).ir k).src1 = 0xFFFFFFFF ∧
      ((reset s).ir k).src2 = 0xFFFFFFFF ∧
      ((reset s).ir k).dest = 0xFFFFFFFF ∧
      ((reset s).ir k).immediate = 0xFFFFFFFF) ∧
    (reset s).instr_base_address = 0xFFFFFFFF ∧
    reset (reset s) = reset s := by
  have him : (reset s).instr_memory i = reset_instruction (s.instr_memory i) := by
    simp only [reset]
    rw [reset_instructions_apply, if_pos hi]
  have hir : (reset s).ir k = reset_instruction (s.ir k) := by
    simp only [reset]
    rw [reset_instructions_apply, if_pos hk]
  refine ⟨?_, ?_, rfl, ?_⟩
  · rw [him]
    exact ⟨rfl, rfl, rfl, rfl, rfl⟩
  · rw [hir]
    exact ⟨rfl, rfl, rfl, rfl, rfl⟩
  · have hdm : ∀ (n : Nat) (m : Nat → Nat),
        reset_data_memory n (reset_data_memory n m) = reset_data_memory n m := by
      intro n m
      funext j
      simp only [reset_data_memory_apply]
      split <;> rfl
    have hin : ∀ (n : Nat) (m : Nat → instruction_t),
        reset_instructions n (reset_instructions n m) = reset_instructions n m := by
      intro n m
      funext j
      simp only [reset_instructions_apply]
      split
      · rw [reset_instruction_idem]
      · rfl
    simp only [reset, hdm, hin]

/-- Witness for C24: reset of a state whose instruction memory holds a
`BNEZ` with immediate 8 in every slot; slot 1 reads `NOP` with immediate
`0xFFFFFFFF` afterwards. -/
theorem C24_reset_erases_program_witness :
    ((reset { sim_pipe_init 16 0 with
        instr_memory := fun _ => { blank_instruction with opcode := .BNEZ, immediate := 8 } }
      ).instr_memory 1).opcode = .NOP ∧
    ((reset { sim_pipe_init 16 0 with
        instr_memory := fun _ => { blank_instruction with opcode := .BNEZ, immediate := 8 } }
      ).instr_memory 1).immediate = 0xFFFFFFFF := by
  have h := (C24_reset_erases_program { sim_pipe_init 16 0 with
    instr_memory := fun _ => { blank_instruction with opcode := .BNEZ, immediate := 8 } }
    1 3 (by decide) (by decide)).1
  exact ⟨h.1, h.2.2.2.2⟩

/-- C25: for every data memory, every address with
`address + 4 <= data_memory_size` and every value, `write_memory` returns on
every host and changes only the data memory, and of it only bytes at
`address .. address + 3`, all below `data_memory_size`: every byte at an
index outside that range, the instruction memory and the statistics counters
are what they were. -/
theorem C25_write_memory_frame (host : byte_order) (s : sim_pipe) (address v : Nat)
    (ha : address + 4 ≤ s.data_memory_size) :
    ∃ s1, write_memory host s address v = some s1 ∧
      (∀ j, j < address ∨ address + 4 ≤ j → s1.data_memory j = s.data_memory j) ∧
      (∀ j, s1.data_memory j ≠ s.data_memory j →
        address ≤ j ∧ j < address + 4 ∧ j < s.data_memory_size) ∧
      s1.instr_memory = s.instr_memory ∧
      s1.clock_cycles = s.clock_cycles ∧ s1.stalls = s.stalls ∧
      s1.instructions_executed = s.instructions_executed ∧
      s1 = { s with data_memory := s1.data_memory } := by
  have hframe : ∀ j, j < address ∨ address + 4 ≤ j →
      int2char host v s.data_memory address j = s.data_memory j :=
    fun j hj => int2char_frame host v s.data_memory address j hj
  refine ⟨_, if_pos ha, hframe, ?_, rfl, rfl, rfl, rfl, rfl⟩
  intro j hne
  by_cases hj : j < address ∨ address + 4 ≤ j
  · exact absurd (hframe j hj) hne
  · omega

/-- Witness for C25: a word written at address 4 of a 16-byte memory leaves
bytes 3 and 8 at `0xFF`. -/
theorem C25_write_memory_frame_witness :
    ∃ s1, write_memory .little_endian (sim_pipe_init 16 0) 4 0 = some s1 ∧
      s1.data_memory 3 = 0xFF ∧ s1.data_memory 8 = 0xFF ∧ s1.data_memory 4 = 0 := by
  obtain ⟨s1, h1, h2, _⟩ :=
    C25_write_memory_frame .little_endian (sim_pipe_init 16 0) 4 0 (by decide)
  refine ⟨s1, h1, ?_, ?_, ?_⟩
  · rw [h2 3 (by omega)]
    rfl
  · rw [h2 8 (by omega)]
    rfl
  · have h := Option.some.inj h1
    rw [← h]
    rfl

end SimPipe
